import Mathlib

/-!
# Verification of the Memory_Allocator contiguous-memory allocation engine

The repository is a contiguous-memory allocation simulator: a memory map
divided into adjacent blocks, each free or owned by a process, mutated by
allocate (first/best/worst fit), release with coalescing, compact and reset.
The frontend components present in the repository (the `RQ` command handler
of the simulator terminal and the `MemoryVisualizer` component) are embedded
from their TypeScript source; the allocation engine itself is only reachable
through its HTTP contracts, so it is modelled from the specification.
-/

set_option maxHeartbeats 1000000

namespace MemAlloc

/-- Modelled from the spec: the occupancy of one block — the backend engine's
block model is not part of the repository source, only its HTTP contracts are.
`Free | Allocated(process_id)`. -/
inductive Owner where
  | Free : Owner
  | Allocated : String → Owner
deriving DecidableEq, Repr

/-- Modelled from the spec: one contiguous range `[start, start+size)` and its
occupancy; `end` is kept derived (`endAddr`) since the spec fixes
`size = end - start`. -/
structure Block where
  start : Nat
  size : Nat
  owner : Owner
deriving DecidableEq, Repr

/-- The exclusive end address of a block. -/
def Block.endAddr (b : Block) : Nat := b.start + b.size

/-- Whether a block is free. -/
def Block.isFree (b : Block) : Bool :=
  match b.owner with
  | Owner.Free => true
  | Owner.Allocated _ => false

/-- Modelled from the spec: the Memory Map — the ordered block sequence plus
`total_memory`. -/
structure MemoryMap where
  blocks : List Block
  total_memory : Nat
deriving DecidableEq, Repr

/-- Modelled from the spec: the initial (and reset) state, a single free block
spanning `[0, total_memory)`. -/
def initMap (T : Nat) : MemoryMap := ⟨[Block.mk 0 T Owner.Free], T⟩

/-- Modelled from the spec: `reset` unconditionally replaces the block sequence
with a single free block spanning `[0, total_memory)`. -/
def reset (m : MemoryMap) : MemoryMap := initMap m.total_memory

/-- The three allocation strategies. -/
inductive Strategy where
  | First : Strategy
  | Best : Strategy
  | Worst : Strategy
deriving DecidableEq, Repr

/-- Enumerate the free blocks of a list, indices starting at `i`. -/
def enumFree : Nat → List Block → List (Nat × Block)
  | _, [] => []
  | i, b :: rest =>
    if b.isFree then (i, b) :: enumFree (i + 1) rest else enumFree (i + 1) rest

/-- Modelled from the spec: `find_free_blocks` — all blocks with `owner = Free`,
with their indices, in address order. -/
def find_free_blocks (blocks : List Block) : List (Nat × Block) :=
  enumFree 0 blocks

/-- Best-fit preference: smaller `size_block`, ties broken by smaller `start`. -/
def betterBest (cand cur : Block) : Bool :=
  decide (cand.size < cur.size) ||
    (decide (cand.size = cur.size) && decide (cand.start < cur.start))

/-- Worst-fit preference: larger `size_block`, ties broken by smaller `start`. -/
def betterWorst (cand cur : Block) : Bool :=
  decide (cur.size < cand.size) ||
    (decide (cand.size = cur.size) && decide (cand.start < cur.start))

/-- Pick from a candidate list, keeping an earlier entry unless a later entry is
strictly better according to `better`. -/
def pickBy (better : Block → Block → Bool) : List (Nat × Block) → Option (Nat × Block)
  | [] => none
  | p :: rest =>
    match pickBy better rest with
    | none => some p
    | some q => if better q.2 p.2 then some q else some p

/-- First fit: scan the free list in order and take the first qualifier. -/
def findFirstFit (size : Nat) : List (Nat × Block) → Option (Nat × Block)
  | [] => none
  | p :: rest => if size ≤ p.2.size then some p else findFirstFit size rest

/-- The free-list entries whose block can hold the requested size. -/
def filterFits (size : Nat) : List (Nat × Block) → List (Nat × Block)
  | [] => []
  | p :: rest =>
    if size ≤ p.2.size then p :: filterFits size rest else filterFits size rest

/-- Modelled from the spec: the Allocation Strategy Selector. Input: requested
size and the current free-block list; output: index of the chosen free block,
or `none` (NoFit) if no free block has `size_block ≥ size`. First fit scans in
address order; best (worst) fit minimises (maximises) `size_block` among
qualifiers with ties broken by smallest `start`. -/
def selectBlock (strat : Strategy) (size : Nat) (frees : List (Nat × Block)) : Option Nat :=
  match strat with
  | Strategy.First => (findFirstFit size frees).map Prod.fst
  | Strategy.Best => (pickBy betterBest (filterFits size frees)).map Prod.fst
  | Strategy.Worst => (pickBy betterWorst (filterFits size frees)).map Prod.fst

/-- Modelled from the spec: `split_or_consume` — given a free block at the index
with `size_block ≥ size`, allocate it in place when sizes match exactly,
otherwise split it into an allocated block of the requested length at the
original start followed by a free remainder. -/
def split_or_consume (size : Nat) (pid : String) : Nat → List Block → List Block
  | _, [] => []
  | 0, b :: rest =>
    if b.size = size then
      { b with owner := Owner.Allocated pid } :: rest
    else
      Block.mk b.start size (Owner.Allocated pid) ::
        Block.mk (b.start + size) (b.size - size) Owner.Free :: rest
  | n + 1, b :: rest => b :: split_or_consume size pid n rest

/-- Whether `pid` currently owns a block. -/
def ownsBlock (pid : String) (blocks : List Block) : Bool :=
  blocks.any (fun b => decide (b.owner = Owner.Allocated pid))

/-- The error taxonomy of the engine. -/
inductive AllocError where
  | InvalidRequest : AllocError
  | DuplicateProcess : AllocError
  | InsufficientSpace : AllocError
  | ProcessNotFound : AllocError
deriving DecidableEq, Repr

/-- Modelled from the spec: the allocate operation. Fails with `InvalidRequest`
if `size ≤ 0`, with `DuplicateProcess` if the process already owns a block, and
with `InsufficientSpace` on NoFit; otherwise `split_or_consume` at the selected
index. -/
def allocate (pid : String) (size : Int) (strat : Strategy) (m : MemoryMap) :
    Except AllocError MemoryMap :=
  if size ≤ 0 then Except.error AllocError.InvalidRequest
  else if ownsBlock pid m.blocks then Except.error AllocError.DuplicateProcess
  else
    match selectBlock strat size.toNat (find_free_blocks m.blocks) with
    | none => Except.error AllocError.InsufficientSpace
    | some i => Except.ok ⟨split_or_consume size.toNat pid i m.blocks, m.total_memory⟩

/-- Modelled from the spec: `locate_owned` — index of the block owned by `pid`,
if any. -/
def locate_owned (pid : String) : List Block → Option Nat
  | [] => none
  | b :: rest =>
    if b.owner = Owner.Allocated pid then some 0
    else (locate_owned pid rest).map (· + 1)

/-- Set the owner of the block at the given index to `Free`. -/
def freeOwnerAt : Nat → List Block → List Block
  | _, [] => []
  | 0, b :: rest => { b with owner := Owner.Free } :: rest
  | n + 1, b :: rest => b :: freeOwnerAt n rest

/-- Merge a free block with the following block when that one is also free. -/
def mergeNext (b : Block) : List Block → List Block
  | [] => [b]
  | c :: rest =>
    if c.isFree then Block.mk b.start (b.size + c.size) Owner.Free :: rest
    else b :: c :: rest

/-- Modelled from the spec: `merge_at` — if the block at the index is free,
absorb the previous and/or next block when these are free as well (merging with
both neighbours when both qualify). -/
def merge_at : Nat → List Block → List Block
  | 0, [] => []
  | 0, b :: rest => if b.isFree then mergeNext b rest else b :: rest
  | 1, [] => []
  | 1, [a] => [a]
  | 1, a :: b :: rest =>
    if b.isFree then
      if a.isFree then mergeNext (Block.mk a.start (a.size + b.size) Owner.Free) rest
      else a :: mergeNext b rest
    else a :: b :: rest
  | _ + 2, [] => []
  | n + 2, a :: rest => a :: merge_at (n + 1) rest

/-- Modelled from the spec: the release operation. Locate the owned block, set
its owner to `Free`, then `merge_at` that index; fails with `ProcessNotFound`
when `pid` owns nothing. -/
def release (pid : String) (m : MemoryMap) : Except AllocError MemoryMap :=
  match locate_owned pid m.blocks with
  | none => Except.error AllocError.ProcessNotFound
  | some i => Except.ok ⟨merge_at i (freeOwnerAt i m.blocks), m.total_memory⟩

/-- Modelled from the spec: the compaction walk — keep allocated blocks in
order, reassigning each `start` to the running cursor, and discard free blocks;
returns the packed list together with the final cursor. -/
def packAllocated (cursor : Nat) : List Block → List Block × Nat
  | [] => ([], cursor)
  | b :: rest =>
    if b.isFree then packAllocated cursor rest
    else
      let r := packAllocated (cursor + b.size) rest
      ({ b with start := cursor } :: r.1, r.2)

/-- Modelled from the spec: the compact operation — pack allocated blocks from
address 0 and append one trailing free block exactly when the cursor is below
`total_memory`. -/
def compact (m : MemoryMap) : MemoryMap :=
  let r := packAllocated 0 m.blocks
  if r.2 < m.total_memory then
    ⟨r.1 ++ [Block.mk r.2 (m.total_memory - r.2) Owner.Free], m.total_memory⟩
  else
    ⟨r.1, m.total_memory⟩

/-- One externally issued mutating operation of the Manager Facade. -/
inductive Op where
  | alloc : String → Int → Strategy → Op
  | rel : String → Op
  | comp : Op
  | res : Op

/-- The facade applies one operation atomically: a failing operation publishes
no change. -/
def applyOp (m : MemoryMap) : Op → MemoryMap
  | Op.alloc pid size strat =>
    match allocate pid size strat m with
    | Except.ok m2 => m2
    | Except.error _ => m
  | Op.rel pid =>
    match release pid m with
    | Except.ok m2 => m2
    | Except.error _ => m
  | Op.comp => compact m
  | Op.res => reset m

/-- Run a sequence of operations from a starting map. -/
def runOps (m : MemoryMap) (ops : List Op) : MemoryMap := ops.foldl applyOp m

/-! ## Well-formedness -/

/-- `chainB lo blocks hi`: the blocks tile `[lo, hi)` exactly — each block
starts where the previous ended, all sizes positive. -/
def chainB : Nat → List Block → Nat → Bool
  | lo, [], hi => decide (lo = hi)
  | lo, b :: rest, hi =>
    decide (b.start = lo) && decide (0 < b.size) && chainB (b.start + b.size) rest hi

/-- No two adjacent blocks are both free. -/
def noAdjFree : List Block → Bool
  | [] => true
  | [_] => true
  | a :: b :: rest => !(a.isFree && b.isFree) && noAdjFree (b :: rest)

/-- The process ids of the allocated blocks, in address order. -/
def allocPids (blocks : List Block) : List String :=
  blocks.filterMap (fun b =>
    match b.owner with
    | Owner.Free => none
    | Owner.Allocated pid => some pid)

/-- Well-formedness of a memory map: positive total size, the blocks tile
`[0, total_memory)`, no two adjacent free blocks, and each process id owns at
most one block. -/
def WF (m : MemoryMap) : Prop :=
  0 < m.total_memory ∧ chainB 0 m.blocks m.total_memory = true ∧
    noAdjFree m.blocks = true ∧ (allocPids m.blocks).Nodup

instance (m : MemoryMap) : Decidable (WF m) := by
  unfold WF; infer_instance

/-- The allocated blocks of a list, in order. -/
def allocBlocks (l : List Block) : List Block := l.filter (fun b => !b.isFree)

/-- The total size of the allocated blocks. -/
def allocSizes (l : List Block) : Nat := ((allocBlocks l).map Block.size).sum

/-- Owner and size of a block: what compaction must preserve per block. -/
def blockSig (b : Block) : Owner × Nat := (b.owner, b.size)

/-- A map in compacted shape, following the spec's words: the allocated blocks
are packed gaplessly from address 0, followed by at most one trailing free
block reaching `total_memory`. -/
def Compacted (m : MemoryMap) : Prop :=
  ∃ A c, (∀ b ∈ A, b.isFree = false) ∧ chainB 0 A c = true ∧
    ((c = m.total_memory ∧ m.blocks = A) ∨
      (c < m.total_memory ∧
        m.blocks = A ++ [Block.mk c (m.total_memory - c) Owner.Free]))

/-- The spec's description of release-with-coalescing around the released block
`b` (already marked free): absorb the previous block (last of `L1`) and/or the
next block (head of `L2`) when free, merging with both when both qualify. -/
def coalesceNbhd (L1 : List Block) (b : Block) (L2 : List Block) : List Block :=
  match L1.getLast?, L2.head? with
  | some p, some n =>
    if p.isFree then
      if n.isFree then
        L1.dropLast ++ Block.mk p.start (p.size + b.size + n.size) Owner.Free :: L2.tail
      else L1.dropLast ++ Block.mk p.start (p.size + b.size) Owner.Free :: L2
    else
      if n.isFree then L1 ++ Block.mk b.start (b.size + n.size) Owner.Free :: L2.tail
      else L1 ++ b :: L2
  | some p, none =>
    if p.isFree then L1.dropLast ++ [Block.mk p.start (p.size + b.size) Owner.Free]
    else L1 ++ [b]
  | none, some n =>
    if n.isFree then Block.mk b.start (b.size + n.size) Owner.Free :: L2.tail
    else b :: L2
  | none, none => [b]

/-! ## Frontend: the simulator terminal's RQ command handler
(`src/unnamed/part_000`, `handleCommandSubmit`) -/

/-- ASCII uppercase of one character, as JavaScript `toUpperCase` acts on the
letters appearing here. -/
def asciiUpperChar (c : Char) : Char :=
  if 'a' ≤ c ∧ c ≤ 'z' then Char.ofNat (c.toNat - 32) else c

/-- ASCII uppercase of a string. -/
def asciiUpper (s : String) : String := String.mk (s.data.map asciiUpperChar)

/-- A decimal digit. -/
def isDigitChar (c : Char) : Bool := decide ('0' ≤ c) && decide (c ≤ '9')

/-- Whitespace skipped by JavaScript `parseInt`. -/
def isJsWS (c : Char) : Bool :=
  decide (c = ' ') || decide (c = '\t') || decide (c = '\n') || decide (c = '\r')

/-- Numeric value of a digit sequence. -/
def digitsToNat (cs : List Char) : Nat :=
  cs.foldl (fun acc c => acc * 10 + (c.toNat - Char.toNat '0')) 0

/-- The longest leading digit sequence, `none` when there is no digit. -/
def parseDigits (cs : List Char) : Option Nat :=
  match cs.takeWhile isDigitChar with
  | [] => none
  | ds => some (digitsToNat ds)

/-- JavaScript `parseInt(s, 10)`: skip leading whitespace, read an optional
sign, then the longest digit run; `NaN` (here `none`) when no digit follows. -/
def parseIntJS (s : String) : Option Int :=
  match s.data.dropWhile isJsWS with
  | '-' :: rest => (parseDigits rest).map (fun n => -(n : Int))
  | '+' :: rest => (parseDigits rest).map (fun n => (n : Int))
  | cs => (parseDigits cs).map (fun n => (n : Int))

/-- The request body the handler posts to `brain.allocate_memory`. -/
structure AllocateRequest where
  process_id : String
  size : Int
  strategy : String
deriving DecidableEq, Repr

/-- Observable outcome of the RQ branch: either a network request is issued, or
an error entry is recorded in the history and nothing is sent. -/
inductive RqOutcome where
  | sent : AllocateRequest → RqOutcome
  | errorEntry : String → RqOutcome
deriving DecidableEq, Repr

/-- The `case 'RQ'` branch of `handleCommandSubmit` on the argument tokens:
exactly three arguments, `parseInt` of the size must yield a positive number,
and the uppercased strategy must be F, B or W; any violation throws, which the
surrounding `catch` records as an error entry. -/
def handleRQ (args : List String) : RqOutcome :=
  match args with
  | [pid, sizeStr, strat] =>
    match parseIntJS sizeStr with
    | none => RqOutcome.errorEntry "Invalid size. Must be a positive number."
    | some n =>
      if n ≤ 0 then RqOutcome.errorEntry "Invalid size. Must be a positive number."
      else if asciiUpper strat = "F" ∨ asciiUpper strat = "B" ∨ asciiUpper strat = "W" then
        RqOutcome.sent ⟨pid, n, asciiUpper strat⟩
      else RqOutcome.errorEntry "Invalid strategy. Use F, B, or W."
  | _ => RqOutcome.errorEntry "Usage: RQ <process_id> <size> <strategy(F/B/W)>"

/-- The command dispatch of `handleCommandSubmit`, restricted to the RQ branch:
the first token is uppercased and compared against the command names; other
commands are outside this model (`none`). -/
def handleCommandSubmit (parts : List String) : Option RqOutcome :=
  match parts with
  | [] => none
  | cmd :: args => if asciiUpper cmd = "RQ" then some (handleRQ args) else none

/-! ## Frontend: the MemoryVisualizer component
(`src/frontend/src/components/MemoryVisualizer.tsx`) -/

/-- The block shape the visualizer receives. -/
structure MemoryBlockData where
  start : Int
  endAddr : Int
  size : Int
  status : String
  process_id : Option String
deriving DecidableEq, Repr

/-- What the visualizer renders: one of the two fallback messages, or the bar
row with one width percentage per block, plus whether the size-sum consistency
warning was logged. -/
inductive VizOutput where
  | totalSizeMessage : VizOutput
  | noBlocksMessage : VizOutput
  | bars : Bool → List ℚ → VizOutput
deriving DecidableEq, Repr

/-- The `MemoryVisualizer` component: guard on non-positive total size, then on
an absent or empty block list; otherwise render every block with width
`size / totalMemorySize * 100` (exact arithmetic models the JS numbers), the
size-sum mismatch only triggering a console warning. -/
def memoryVisualizer (blocks : Option (List MemoryBlockData))
    (totalMemorySize : Int) : VizOutput :=
  if totalMemorySize ≤ 0 then VizOutput.totalSizeMessage
  else
    match blocks with
    | none => VizOutput.noBlocksMessage
    | some l =>
      if l.isEmpty then VizOutput.noBlocksMessage
      else
        VizOutput.bars (decide ((l.map (fun b => b.size)).sum ≠ totalMemorySize))
          (l.map (fun b => (b.size : ℚ) / (totalMemorySize : ℚ) * 100))

end MemAlloc

namespace MemAlloc

/-! ## Basic lemmas: chains, adjacency, process ids -/

theorem isFree_iff_owner {b : Block} : b.isFree = true ↔ b.owner = Owner.Free := by
  cases b with
  | mk s z o => cases o <;> simp [Block.isFree]

theorem isFree_false_iff_owner {b : Block} :
    b.isFree = false ↔ ∃ q, b.owner = Owner.Allocated q := by
  cases b with
  | mk s z o => cases o <;> simp [Block.isFree]

theorem chainB_nil_iff {lo hi : Nat} : chainB lo [] hi = true ↔ lo = hi := by
  simp [chainB]

theorem chainB_cons_iff {lo hi : Nat} {b : Block} {l : List Block} :
    chainB lo (b :: l) hi = true ↔
      b.start = lo ∧ 0 < b.size ∧ chainB (b.start + b.size) l hi = true := by
  simp [chainB, and_assoc]

theorem chainB_sizes_pos {l : List Block} :
    ∀ {lo hi : Nat}, chainB lo l hi = true → ∀ b ∈ l, 0 < b.size := by
  induction l with
  | nil => intro lo hi _ b hb; cases hb
  | cons a l ih =>
    intro lo hi h b hb
    rw [chainB_cons_iff] at h
    rcases List.mem_cons.mp hb with hb | hb
    · exact hb ▸ h.2.1
    · exact ih h.2.2 b hb

theorem chainB_sum {l : List Block} :
    ∀ {lo hi : Nat}, chainB lo l hi = true → lo + (l.map Block.size).sum = hi := by
  induction l with
  | nil => intro lo hi h; rw [chainB_nil_iff] at h; simpa using h
  | cons a l ih =>
    intro lo hi h
    rw [chainB_cons_iff] at h
    have := ih h.2.2
    simp only [List.map_cons, List.sum_cons]
    omega

theorem chainB_append {l1 l2 : List Block} :
    ∀ {lo mid hi : Nat}, chainB lo l1 mid = true → chainB mid l2 hi = true →
      chainB lo (l1 ++ l2) hi = true := by
  induction l1 with
  | nil =>
    intro lo mid hi h1 h2
    rw [chainB_nil_iff] at h1
    simpa [h1] using h2
  | cons a l ih =>
    intro lo mid hi h1 h2
    rw [chainB_cons_iff] at h1
    rw [List.cons_append, chainB_cons_iff]
    exact ⟨h1.1, h1.2.1, ih h1.2.2 h2⟩

theorem noAdjFree_cons_iff {a : Block} {l : List Block} :
    noAdjFree (a :: l) = true ↔
      (∀ b, l.head? = some b → (a.isFree && b.isFree) = false) ∧ noAdjFree l = true := by
  cases l with
  | nil => simp [noAdjFree]
  | cons b rest =>
    show (!(a.isFree && b.isFree) && noAdjFree (b :: rest)) = true ↔ _
    simp only [Bool.and_eq_true, Bool.not_eq_true', List.head?_cons]
    constructor
    · rintro ⟨h1, h2⟩
      exact ⟨fun c hc => by cases hc; exact h1, h2⟩
    · rintro ⟨h1, h2⟩
      exact ⟨h1 b rfl, h2⟩

theorem allocPids_cons_free {a : Block} {l : List Block} (h : a.owner = Owner.Free) :
    allocPids (a :: l) = allocPids l := by
  simp [allocPids, List.filterMap_cons, h]

theorem allocPids_cons_alloc {a : Block} {l : List Block} {q : String}
    (h : a.owner = Owner.Allocated q) : allocPids (a :: l) = q :: allocPids l := by
  simp [allocPids, List.filterMap_cons, h]

theorem ownsBlock_eq_true_iff {pid : String} {l : List Block} :
    ownsBlock pid l = true ↔ pid ∈ allocPids l := by
  induction l with
  | nil => simp [ownsBlock, allocPids]
  | cons a l ih =>
    simp only [ownsBlock, List.any_cons, Bool.or_eq_true, decide_eq_true_eq] at ih ⊢
    cases howner : a.owner with
    | Free =>
      rw [allocPids_cons_free howner]
      simp [howner, ih]
    | Allocated q =>
      rw [allocPids_cons_alloc howner]
      simp only [howner, List.mem_cons, ih]
      constructor
      · rintro (h | h)
        · exact Or.inl (by injection h with h1; exact h1.symm)
        · exact Or.inr h
      · rintro (h | h)
        · exact Or.inl (by rw [h])
        · exact Or.inr h

theorem ownsBlock_eq_false_iff {pid : String} {l : List Block} :
    ownsBlock pid l = false ↔ pid ∉ allocPids l := by
  rw [Bool.eq_false_iff]
  exact not_congr ownsBlock_eq_true_iff

/-! ## Selector lemmas -/

theorem findFirstFit_mem {size : Nat} {frees : List (Nat × Block)} {p : Nat × Block}
    (h : findFirstFit size frees = some p) : p ∈ frees ∧ size ≤ p.2.size := by
  induction frees with
  | nil => cases h
  | cons q rest ih =>
    rw [findFirstFit] at h
    split at h
    · cases h
      exact ⟨List.mem_cons_self _ _, by assumption⟩
    · have := ih h
      exact ⟨List.mem_cons_of_mem _ this.1, this.2⟩

theorem findFirstFit_none_iff {size : Nat} {frees : List (Nat × Block)} :
    findFirstFit size frees = none ↔ ∀ p ∈ frees, p.2.size < size := by
  induction frees with
  | nil => simp [findFirstFit]
  | cons q rest ih =>
    rw [findFirstFit]
    split
    · simp only [iff_false_intro (Option.some_ne_none q), false_iff]
      intro hall
      have := hall q (List.mem_cons_self _ _)
      omega
    · rw [ih]
      constructor
      · intro hall p hp
        rcases List.mem_cons.mp hp with hp | hp
        · subst hp; omega
        · exact hall p hp
      · intro hall p hp
        exact hall p (List.mem_cons_of_mem _ hp)

theorem findFirstFit_min_start {size : Nat} {frees : List (Nat × Block)} {p : Nat × Block}
    (hs : List.Pairwise (fun p q : Nat × Block => p.2.start ≤ q.2.start) frees)
    (h : findFirstFit size frees = some p) :
    ∀ q ∈ frees, size ≤ q.2.size → p.2.start ≤ q.2.start := by
  induction frees with
  | nil => cases h
  | cons x rest ih =>
    rw [findFirstFit] at h
    rw [List.pairwise_cons] at hs
    split at h
    · cases h
      intro q hq _
      rcases List.mem_cons.mp hq with hq | hq
      · subst hq; exact Nat.le_refl _
      · exact hs.1 q hq
    · intro q hq hqs
      rcases List.mem_cons.mp hq with hq | hq
      · subst hq; omega
      · exact ih hs.2 h q hq hqs

theorem filterFits_mem {size : Nat} {frees : List (Nat × Block)} {p : Nat × Block} :
    p ∈ filterFits size frees ↔ p ∈ frees ∧ size ≤ p.2.size := by
  induction frees with
  | nil => simp [filterFits]
  | cons q rest ih =>
    rw [filterFits]
    split
    · simp only [List.mem_cons, ih]
      constructor
      · intro h
        rcases h with h | h
        · exact ⟨Or.inl h, by subst h; assumption⟩
        · exact ⟨Or.inr h.1, h.2⟩
      · intro h
        rcases h.1 with h1 | h1
        · exact Or.inl h1
        · exact Or.inr ⟨h1, h.2⟩
    · rw [ih]
      simp only [List.mem_cons]
      constructor
      · intro h; exact ⟨Or.inr h.1, h.2⟩
      · intro h
        rcases h.1 with h1 | h1
        · subst h1; omega
        · exact ⟨h1, h.2⟩

theorem filterFits_nil_iff {size : Nat} {frees : List (Nat × Block)} :
    filterFits size frees = [] ↔ ∀ p ∈ frees, p.2.size < size := by
  induction frees with
  | nil => simp [filterFits]
  | cons q rest ih =>
    rw [filterFits]
    split
    · simp only [iff_false_intro (List.cons_ne_nil q _), false_iff]
      intro hall
      have := hall q (List.mem_cons_self _ _)
      omega
    · rw [ih]
      constructor
      · intro hall p hp
        rcases List.mem_cons.mp hp with hp | hp
        · subst hp; omega
        · exact hall p hp
      · intro hall p hp
        exact hall p (List.mem_cons_of_mem _ hp)

theorem pickBy_none_iff {better : Block → Block → Bool} {l : List (Nat × Block)} :
    pickBy better l = none ↔ l = [] := by
  cases l with
  | nil => simp [pickBy]
  | cons p rest =>
    simp only [pickBy]
    cases hrec : pickBy better rest with
    | none => simp
    | some q =>
      dsimp only
      by_cases hb : better q.2 p.2 = true
      · rw [if_pos hb]; simp
      · rw [if_neg hb]; simp

theorem pickBy_mem {better : Block → Block → Bool} {l : List (Nat × Block)}
    {p : Nat × Block} (h : pickBy better l = some p) : p ∈ l := by
  induction l generalizing p with
  | nil => cases h
  | cons x rest ih =>
    rw [pickBy] at h
    cases hrec : pickBy better rest with
    | none =>
      rw [hrec] at h
      cases h
      exact List.mem_cons_self _ _
    | some q0 =>
      rw [hrec] at h
      dsimp only at h
      by_cases hb : better q0.2 x.2 = true
      · rw [if_pos hb] at h
        cases h
        exact List.mem_cons_of_mem _ (ih hrec)
      · rw [if_neg hb] at h
        cases h
        exact List.mem_cons_self _ _

theorem pickBy_opt {better : Block → Block → Bool} {l : List (Nat × Block)}
    {p : Nat × Block}
    (hirr : ∀ a, better a a = false)
    (hasym : ∀ a b, better a b = true → better b a = false)
    (htr : ∀ a b c, better c b = false → better b a = false → better c a = false)
    (h : pickBy better l = some p) : ∀ q ∈ l, better q.2 p.2 = false := by
  induction l generalizing p with
  | nil => cases h
  | cons x rest ih =>
    rw [pickBy] at h
    cases hrec : pickBy better rest with
    | none =>
      rw [hrec] at h
      cases h
      rw [pickBy_none_iff] at hrec
      subst hrec
      intro q hq
      rcases List.mem_cons.mp hq with hq | hq
      · subst hq; exact hirr _
      · cases hq
    | some q0 =>
      rw [hrec] at h
      dsimp only at h
      by_cases hb : better q0.2 x.2 = true
      · rw [if_pos hb] at h
        cases h
        intro q hq
        rcases List.mem_cons.mp hq with hq | hq
        · subst hq; exact hasym _ _ hb
        · exact ih hrec q hq
      · rw [if_neg hb] at h
        cases h
        intro q hq
        rcases List.mem_cons.mp hq with hq | hq
        · subst hq; exact hirr _
        · exact htr x.2 q0.2 q.2 (ih hrec q hq) (Bool.eq_false_iff.mpr hb)

theorem betterBest_irrefl (a : Block) : betterBest a a = false := by
  simp [betterBest]

theorem betterBest_asym (a b : Block) (h : betterBest a b = true) :
    betterBest b a = false := by
  simp only [betterBest, Bool.or_eq_true, Bool.and_eq_true, decide_eq_true_eq] at h
  simp only [betterBest, Bool.or_eq_false_iff, Bool.and_eq_false_iff,
    decide_eq_false_iff_not]
  omega

theorem betterBest_tr (a b c : Block) (h1 : betterBest c b = false)
    (h2 : betterBest b a = false) : betterBest c a = false := by
  simp only [betterBest, Bool.or_eq_false_iff, Bool.and_eq_false_iff,
    decide_eq_false_iff_not] at h1 h2 ⊢
  omega

theorem betterWorst_irrefl (a : Block) : betterWorst a a = false := by
  simp [betterWorst]

theorem betterWorst_asym (a b : Block) (h : betterWorst a b = true) :
    betterWorst b a = false := by
  simp only [betterWorst, Bool.or_eq_true, Bool.and_eq_true, decide_eq_true_eq] at h
  simp only [betterWorst, Bool.or_eq_false_iff, Bool.and_eq_false_iff,
    decide_eq_false_iff_not]
  omega

theorem betterWorst_tr (a b c : Block) (h1 : betterWorst c b = false)
    (h2 : betterWorst b a = false) : betterWorst c a = false := by
  simp only [betterWorst, Bool.or_eq_false_iff, Bool.and_eq_false_iff,
    decide_eq_false_iff_not] at h1 h2 ⊢
  omega

theorem selectBlock_some_mem {strat : Strategy} {s : Nat} {frees : List (Nat × Block)}
    {i : Nat} (h : selectBlock strat s frees = some i) :
    ∃ b, (i, b) ∈ frees ∧ s ≤ b.size := by
  cases strat with
  | First =>
    simp only [selectBlock, Option.map_eq_some'] at h
    obtain ⟨p, hp, hi⟩ := h
    have := findFirstFit_mem hp
    exact ⟨p.2, by rw [← hi]; exact ⟨this.1, this.2⟩⟩
  | Best =>
    simp only [selectBlock, Option.map_eq_some'] at h
    obtain ⟨p, hp, hi⟩ := h
    have := filterFits_mem.mp (pickBy_mem hp)
    exact ⟨p.2, by rw [← hi]; exact ⟨this.1, this.2⟩⟩
  | Worst =>
    simp only [selectBlock, Option.map_eq_some'] at h
    obtain ⟨p, hp, hi⟩ := h
    have := filterFits_mem.mp (pickBy_mem hp)
    exact ⟨p.2, by rw [← hi]; exact ⟨this.1, this.2⟩⟩

theorem selectBlock_none_iff {strat : Strategy} {s : Nat} {frees : List (Nat × Block)} :
    selectBlock strat s frees = none ↔ ∀ p ∈ frees, p.2.size < s := by
  cases strat with
  | First => simp only [selectBlock, Option.map_eq_none']; exact findFirstFit_none_iff
  | Best =>
    simp only [selectBlock, Option.map_eq_none', pickBy_none_iff]
    exact filterFits_nil_iff
  | Worst =>
    simp only [selectBlock, Option.map_eq_none', pickBy_none_iff]
    exact filterFits_nil_iff

end MemAlloc

namespace MemAlloc

/-! ## Lemmas about the free-block enumeration and splitting -/

theorem enumFree_mem {l : List Block} :
    ∀ {i0 : Nat} {p : Nat × Block}, p ∈ enumFree i0 l →
      ∃ j, p.1 = i0 + j ∧ l.get? j = some p.2 ∧ p.2.isFree = true := by
  induction l with
  | nil => intro i0 p h; cases h
  | cons a rest ih =>
    intro i0 p h
    rw [enumFree] at h
    by_cases ha : a.isFree = true
    · rw [if_pos ha] at h
      rcases List.mem_cons.mp h with h | h
      · subst h
        exact ⟨0, by omega, rfl, ha⟩
      · obtain ⟨j, hj1, hj2, hj3⟩ := ih h
        exact ⟨j + 1, by omega, by simpa using hj2, hj3⟩
    · rw [if_neg ha] at h
      obtain ⟨j, hj1, hj2, hj3⟩ := ih h
      exact ⟨j + 1, by omega, by simpa using hj2, hj3⟩

theorem find_free_blocks_spec {blocks : List Block} {i : Nat} {b : Block}
    (h : (i, b) ∈ find_free_blocks blocks) :
    blocks.get? i = some b ∧ b.isFree = true := by
  obtain ⟨j, hj1, hj2, hj3⟩ := enumFree_mem h
  have hij : i = j := by simpa using hj1
  subst hij
  exact ⟨hj2, hj3⟩

theorem chainB_split {s : Nat} {pid : String} :
    ∀ {i : Nat} {l : List Block} {lo hi : Nat} {b : Block},
      l.get? i = some b → 0 < s → s ≤ b.size → chainB lo l hi = true →
      chainB lo (split_or_consume s pid i l) hi = true := by
  intro i l
  induction l generalizing i with
  | nil => intro lo hi b hget; cases hget
  | cons a rest ih =>
    intro lo hi b hget hs hsb hch
    rw [chainB_cons_iff] at hch
    cases i with
    | zero =>
      cases hget
      rw [split_or_consume]
      by_cases he : a.size = s
      · rw [if_pos he]
        rw [chainB_cons_iff]
        exact ⟨hch.1, hch.2.1, hch.2.2⟩
      · rw [if_neg he]
        rw [chainB_cons_iff]
        refine ⟨hch.1, hs, ?_⟩
        rw [chainB_cons_iff]
        refine ⟨rfl, ?_, ?_⟩
        · show 0 < a.size - s
          omega
        · show chainB (a.start + s + (a.size - s)) rest hi = true
          have harith : a.start + s + (a.size - s) = a.start + a.size := by omega
          rw [harith]
          exact hch.2.2
    | succ n =>
      simp only [List.get?_cons_succ] at hget
      rw [split_or_consume, chainB_cons_iff]
      exact ⟨hch.1, hch.2.1, ih hget hs hsb hch.2.2⟩

theorem split_head_cases (s : Nat) (pid : String) (i : Nat) (l : List Block) :
    (split_or_consume s pid i l).head? = l.head? ∨
      ∃ b2, (split_or_consume s pid i l).head? = some b2 ∧ b2.isFree = false := by
  cases l with
  | nil => cases i <;> exact Or.inl rfl
  | cons a rest =>
    cases i with
    | zero =>
      rw [split_or_consume]
      by_cases he : a.size = s
      · rw [if_pos he]
        refine Or.inr ⟨_, rfl, ?_⟩
        simp [Block.isFree]
      · rw [if_neg he]
        refine Or.inr ⟨_, rfl, ?_⟩
        simp [Block.isFree]
    | succ n => exact Or.inl rfl

theorem noAdjFree_split {s : Nat} {pid : String} :
    ∀ {i : Nat} {l : List Block} {b : Block},
      l.get? i = some b → b.isFree = true → noAdjFree l = true →
      noAdjFree (split_or_consume s pid i l) = true := by
  intro i l
  induction l generalizing i with
  | nil => intro b hget; cases hget
  | cons a rest ih =>
    intro b hget hfree hadj
    rw [noAdjFree_cons_iff] at hadj
    cases i with
    | zero =>
      cases hget
      rw [split_or_consume]
      by_cases he : a.size = s
      · rw [if_pos he]
        rw [noAdjFree_cons_iff]
        refine ⟨?_, hadj.2⟩
        intro c hc
        have : Block.isFree { a with owner := Owner.Allocated pid } = false := by
          simp [Block.isFree]
        simp [this]
      · rw [if_neg he]
        rw [noAdjFree_cons_iff]
        constructor
        · intro c hc
          cases hc
          simp [Block.isFree]
        · rw [noAdjFree_cons_iff]
          refine ⟨?_, hadj.2⟩
          intro c hc
          have := hadj.1 c hc
          rw [hfree] at this
          simp only [Bool.true_and] at this
          simp [this]
    | succ n =>
      simp only [List.get?_cons_succ] at hget
      rw [split_or_consume]
      rw [noAdjFree_cons_iff]
      refine ⟨?_, ih hget hfree hadj.2⟩
      intro c hc
      rcases split_head_cases s pid n rest with hcase | ⟨b2, hb2, hb2f⟩
      · rw [hcase] at hc
        exact hadj.1 c hc
      · rw [hb2] at hc
        cases hc
        simp [hb2f]

theorem allocPids_split {s : Nat} {pid : String} :
    ∀ {i : Nat} {l : List Block} {b : Block},
      l.get? i = some b → b.isFree = true →
      ∃ L1 L2, allocPids l = L1 ++ L2 ∧
        allocPids (split_or_consume s pid i l) = L1 ++ pid :: L2 := by
  intro i l
  induction l generalizing i with
  | nil => intro b hget; cases hget
  | cons a rest ih =>
    intro b hget hfree
    cases i with
    | zero =>
      cases hget
      have howner : a.owner = Owner.Free := isFree_iff_owner.mp hfree
      rw [split_or_consume]
      by_cases he : a.size = s
      · rw [if_pos he]
        refine ⟨[], allocPids rest, by simp [allocPids_cons_free howner], ?_⟩
        have hq1 : ({ a with owner := Owner.Allocated pid } : Block).owner =
            Owner.Allocated pid := rfl
        rw [allocPids_cons_alloc hq1]
        simp
      · rw [if_neg he]
        refine ⟨[], allocPids rest, by simp [allocPids_cons_free howner], ?_⟩
        have hq1 : (Block.mk a.start s (Owner.Allocated pid)).owner =
            Owner.Allocated pid := rfl
        have hq2 : (Block.mk (a.start + s) (a.size - s) Owner.Free).owner =
            Owner.Free := rfl
        rw [allocPids_cons_alloc hq1, allocPids_cons_free hq2]
        simp
    | succ n =>
      simp only [List.get?_cons_succ] at hget
      obtain ⟨L1, L2, h1, h2⟩ := ih hget hfree
      rw [split_or_consume]
      cases howner : a.owner with
      | Free =>
        refine ⟨L1, L2, ?_, ?_⟩
        · rw [allocPids_cons_free howner, h1]
        · rw [allocPids_cons_free howner, h2]
      | Allocated q =>
        refine ⟨q :: L1, L2, ?_, ?_⟩
        · rw [allocPids_cons_alloc howner, h1]; rfl
        · rw [allocPids_cons_alloc howner, h2]; rfl

/-- Allocation preserves well-formedness. -/
theorem WF_allocate {pid : String} {size : Int} {strat : Strategy}
    {m m2 : MemoryMap} (hwf : WF m)
    (h : allocate pid size strat m = Except.ok m2) : WF m2 := by
  rw [allocate] at h
  by_cases hsz : size ≤ 0
  · rw [if_pos hsz] at h; cases h
  · rw [if_neg hsz] at h
    by_cases howns : ownsBlock pid m.blocks = true
    · rw [if_pos howns] at h; cases h
    · rw [if_neg howns] at h
      cases hsel : selectBlock strat size.toNat (find_free_blocks m.blocks) with
      | none => rw [hsel] at h; cases h
      | some i =>
        rw [hsel] at h
        dsimp only at h
        cases h
        obtain ⟨b, hmem, hfit⟩ := selectBlock_some_mem hsel
        obtain ⟨hget, hfree⟩ := find_free_blocks_spec hmem
        have hpos : 0 < size.toNat := by omega
        obtain ⟨hT, hch, hadj, hnd⟩ := hwf
        refine ⟨hT, ?_, ?_, ?_⟩
        · exact chainB_split hget hpos hfit hch
        · exact noAdjFree_split hget hfree hadj
        · obtain ⟨L1, L2, h1, h2⟩ :=
            @allocPids_split size.toNat pid i m.blocks b hget hfree
          rw [h2, List.nodup_middle, List.nodup_cons]
          rw [h1] at hnd
          refine ⟨?_, hnd⟩
          rw [← h1]
          exact ownsBlock_eq_false_iff.mp (Bool.eq_false_iff.mpr howns)

end MemAlloc

namespace MemAlloc

/-! ## Release and coalescing lemmas -/

theorem chainB_freeOwnerAt :
    ∀ {i : Nat} {l : List Block} {lo hi : Nat},
      chainB lo (freeOwnerAt i l) hi = chainB lo l hi := by
  intro i l
  induction l generalizing i with
  | nil =>
    intro lo hi
    cases i <;> rfl
  | cons a rest ih =>
    intro lo hi
    cases i with
    | zero => rw [freeOwnerAt]; rfl
    | succ n =>
      rw [freeOwnerAt]
      show (decide (a.start = lo) && decide (0 < a.size) &&
          chainB (a.start + a.size) (freeOwnerAt n rest) hi) = _
      rw [ih]
      rfl

theorem chainB_mergeNext {b : Block} {l : List Block} {lo hi : Nat}
    (h : chainB lo (b :: l) hi = true) : chainB lo (mergeNext b l) hi = true := by
  rw [chainB_cons_iff] at h
  cases l with
  | nil =>
    rw [mergeNext, chainB_cons_iff]
    exact ⟨h.1, h.2.1, h.2.2⟩
  | cons c rest =>
    rw [mergeNext]
    by_cases hc : c.isFree = true
    · rw [if_pos hc, chainB_cons_iff]
      have h2 := h.2.2
      rw [chainB_cons_iff] at h2
      refine ⟨h.1, ?_, ?_⟩
      · show 0 < b.size + c.size
        omega
      · show chainB (b.start + (b.size + c.size)) rest hi = true
        have harith : b.start + (b.size + c.size) = c.start + c.size := by omega
        rw [harith]
        exact h2.2.2
    · rw [if_neg hc, chainB_cons_iff]
      exact ⟨h.1, h.2.1, h.2.2⟩

theorem chainB_merge_at :
    ∀ {i : Nat} {l : List Block} {lo hi : Nat},
      chainB lo l hi = true → chainB lo (merge_at i l) hi = true := by
  intro i l
  induction l generalizing i with
  | nil =>
    intro lo hi h
    cases i with
    | zero => exact h
    | succ n => cases n <;> exact h
  | cons a rest ih =>
    intro lo hi h
    match i with
    | 0 =>
      rw [merge_at]
      by_cases ha : a.isFree = true
      · rw [if_pos ha]
        exact chainB_mergeNext h
      · rw [if_neg ha]
        exact h
    | 1 =>
      cases rest with
      | nil => rw [merge_at]; exact h
      | cons b rest2 =>
        rw [merge_at]
        rw [chainB_cons_iff] at h
        by_cases hb : b.isFree = true
        · rw [if_pos hb]
          by_cases ha : a.isFree = true
          · rw [if_pos ha]
            have h2 := h.2.2
            rw [chainB_cons_iff] at h2
            apply chainB_mergeNext
            rw [chainB_cons_iff]
            refine ⟨h.1, ?_, ?_⟩
            · show 0 < a.size + b.size
              omega
            · show chainB (a.start + (a.size + b.size)) rest2 hi = true
              have harith : a.start + (a.size + b.size) = b.start + b.size := by omega
              rw [harith]
              exact h2.2.2
          · rw [if_neg ha, chainB_cons_iff]
            exact ⟨h.1, h.2.1, chainB_mergeNext h.2.2⟩
        · rw [if_neg hb, chainB_cons_iff]
          exact ⟨h.1, h.2.1, h.2.2⟩
    | n + 2 =>
      rw [merge_at]
      rw [chainB_cons_iff] at h
      rw [chainB_cons_iff]
      exact ⟨h.1, h.2.1, ih h.2.2⟩

theorem noAdjFree_mergeNext {b : Block} {l : List Block}
    (hl : noAdjFree l = true) : noAdjFree (mergeNext b l) = true := by
  cases l with
  | nil => rw [mergeNext]; rfl
  | cons c rest =>
    rw [noAdjFree_cons_iff] at hl
    rw [mergeNext]
    by_cases hc : c.isFree = true
    · rw [if_pos hc, noAdjFree_cons_iff]
      refine ⟨?_, hl.2⟩
      intro d hd
      have hpair := hl.1 d hd
      rw [hc, Bool.true_and] at hpair
      simp [hpair]
    · rw [if_neg hc, noAdjFree_cons_iff]
      have hc2 : c.isFree = false := Bool.eq_false_iff.mpr hc
      refine ⟨?_, ?_⟩
      · intro d hd
        cases hd
        simp [hc2]
      · rw [noAdjFree_cons_iff]
        exact hl

theorem freeOwnerAt_zero_cons {a : Block} {rest : List Block} :
    freeOwnerAt 0 (a :: rest) = { a with owner := Owner.Free } :: rest := rfl

theorem merge_freeOwnerAt_head {n : Nat} {l : List Block} {h2 : Block}
    (hh : (merge_at (n + 1) (freeOwnerAt (n + 1) l)).head? = some h2)
    (hf : h2.isFree = true) :
    ∃ h1, l.head? = some h1 ∧ h1.isFree = true := by
  cases l with
  | nil =>
    exfalso
    cases n with
    | zero => cases hh
    | succ k => cases hh
  | cons a rest =>
    refine ⟨a, rfl, ?_⟩
    have hfo : freeOwnerAt (n + 1) (a :: rest) = a :: freeOwnerAt n rest := rfl
    rw [hfo] at hh
    cases n with
    | zero =>
      cases hrest : freeOwnerAt 0 rest with
      | nil =>
        rw [hrest] at hh
        rw [merge_at] at hh
        cases hh
        exact hf
      | cons b rest2 =>
        rw [hrest] at hh
        rw [merge_at] at hh
        by_cases hb : b.isFree = true
        · rw [if_pos hb] at hh
          by_cases ha : a.isFree = true
          · exact ha
          · rw [if_neg ha] at hh
            cases hh
            exact hf
        · rw [if_neg hb] at hh
          cases hh
          exact hf
    | succ k =>
      rw [merge_at] at hh
      cases hh
      exact hf

theorem noAdjFree_release :
    ∀ {i : Nat} {l : List Block}, noAdjFree l = true →
      noAdjFree (merge_at i (freeOwnerAt i l)) = true := by
  intro i l
  induction l generalizing i with
  | nil =>
    intro h
    cases i with
    | zero => exact h
    | succ n => cases n <;> exact h
  | cons a rest ih =>
    intro h
    rw [noAdjFree_cons_iff] at h
    match i with
    | 0 =>
      rw [freeOwnerAt_zero_cons, merge_at]
      rw [if_pos (by simp [Block.isFree])]
      exact noAdjFree_mergeNext h.2
    | 1 =>
      have hfo : freeOwnerAt 1 (a :: rest) = a :: freeOwnerAt 0 rest := rfl
      rw [hfo]
      cases rest with
      | nil => rfl
      | cons b rest2 =>
        rw [noAdjFree_cons_iff] at h
        rw [freeOwnerAt_zero_cons, merge_at]
        rw [if_pos (by simp [Block.isFree])]
        by_cases ha : a.isFree = true
        · rw [if_pos ha]
          exact noAdjFree_mergeNext h.2.2
        · rw [if_neg ha]
          rw [noAdjFree_cons_iff]
          refine ⟨?_, noAdjFree_mergeNext h.2.2⟩
          intro d hd
          have ha2 : a.isFree = false := Bool.eq_false_iff.mpr ha
          simp [ha2]
    | n + 2 =>
      have hfo : freeOwnerAt (n + 2) (a :: rest) = a :: freeOwnerAt (n + 1) rest := rfl
      rw [hfo, merge_at, noAdjFree_cons_iff]
      refine ⟨?_, ih h.2⟩
      intro d hd
      by_cases hdf : d.isFree = true
      · obtain ⟨h1, hh1, hh1f⟩ := merge_freeOwnerAt_head hd hdf
        have hp := h.1 h1 hh1
        by_cases ha : a.isFree = true
        · rw [ha, hh1f] at hp
          simp at hp
        · have ha2 : a.isFree = false := Bool.eq_false_iff.mpr ha
          simp [ha2]
      · simp [hdf]

theorem allocPids_mergeNext {b : Block} {l : List Block} (hb : b.isFree = true) :
    allocPids (mergeNext b l) = allocPids l := by
  have hbo : b.owner = Owner.Free := isFree_iff_owner.mp hb
  cases l with
  | nil =>
    rw [mergeNext]
    rw [allocPids_cons_free hbo]
  | cons c rest =>
    rw [mergeNext]
    by_cases hc : c.isFree = true
    · rw [if_pos hc]
      rw [allocPids_cons_free rfl, allocPids_cons_free (isFree_iff_owner.mp hc)]
    · rw [if_neg hc]
      rw [allocPids_cons_free hbo]

theorem allocPids_merge_at :
    ∀ {i : Nat} {l : List Block}, allocPids (merge_at i l) = allocPids l := by
  intro i l
  induction l generalizing i with
  | nil =>
    cases i with
    | zero => rfl
    | succ n => cases n <;> rfl
  | cons a rest ih =>
    match i with
    | 0 =>
      rw [merge_at]
      by_cases ha : a.isFree = true
      · rw [if_pos ha]
        rw [allocPids_mergeNext ha, allocPids_cons_free (isFree_iff_owner.mp ha)]
      · rw [if_neg ha]
    | 1 =>
      cases rest with
      | nil => rfl
      | cons b rest2 =>
        rw [merge_at]
        by_cases hb : b.isFree = true
        · rw [if_pos hb]
          by_cases ha : a.isFree = true
          · rw [if_pos ha]
            rw [allocPids_mergeNext (by simp [Block.isFree]),
              allocPids_cons_free (isFree_iff_owner.mp ha),
              allocPids_cons_free (isFree_iff_owner.mp hb)]
          · rw [if_neg ha]
            cases howner : a.owner with
            | Free => exact absurd (isFree_iff_owner.mpr howner) (by simp [ha])
            | Allocated q =>
              rw [allocPids_cons_alloc howner, allocPids_cons_alloc howner,
                allocPids_mergeNext hb, allocPids_cons_free (isFree_iff_owner.mp hb)]
        · rw [if_neg hb]
    | n + 2 =>
      rw [merge_at]
      cases howner : a.owner with
      | Free => rw [allocPids_cons_free howner, allocPids_cons_free howner, ih]
      | Allocated q =>
        rw [allocPids_cons_alloc howner, allocPids_cons_alloc howner, ih]

theorem allocPids_freeOwnerAt_sublist :
    ∀ {i : Nat} {l : List Block}, (allocPids (freeOwnerAt i l)).Sublist (allocPids l) := by
  intro i l
  induction l generalizing i with
  | nil =>
    cases i <;> exact List.Sublist.refl _
  | cons a rest ih =>
    cases i with
    | zero =>
      rw [freeOwnerAt_zero_cons, allocPids_cons_free rfl]
      cases howner : a.owner with
      | Free => rw [allocPids_cons_free howner]
      | Allocated q =>
        rw [allocPids_cons_alloc howner]
        exact List.sublist_cons_self _ _
    | succ n =>
      have hfo : freeOwnerAt (n + 1) (a :: rest) = a :: freeOwnerAt n rest := rfl
      rw [hfo]
      cases howner : a.owner with
      | Free =>
        rw [allocPids_cons_free howner, allocPids_cons_free howner]
        exact ih
      | Allocated q =>
        rw [allocPids_cons_alloc howner, allocPids_cons_alloc howner]
        exact List.Sublist.cons₂ _ ih

/-- Release preserves well-formedness. -/
theorem WF_release {pid : String} {m m2 : MemoryMap} (hwf : WF m)
    (h : release pid m = Except.ok m2) : WF m2 := by
  rw [release] at h
  cases hloc : locate_owned pid m.blocks with
  | none => rw [hloc] at h; cases h
  | some i =>
    rw [hloc] at h
    dsimp only at h
    cases h
    obtain ⟨hT, hch, hadj, hnd⟩ := hwf
    refine ⟨hT, ?_, ?_, ?_⟩
    · apply chainB_merge_at
      rw [chainB_freeOwnerAt]
      exact hch
    · exact noAdjFree_release hadj
    · rw [allocPids_merge_at]
      exact hnd.sublist allocPids_freeOwnerAt_sublist

end MemAlloc

namespace MemAlloc

/-! ## Compaction lemmas -/

theorem allocBlocks_cons_free {a : Block} {l : List Block} (h : a.isFree = true) :
    allocBlocks (a :: l) = allocBlocks l := by
  simp [allocBlocks, List.filter_cons, h]

theorem allocBlocks_cons_alloc {a : Block} {l : List Block} (h : a.isFree = false) :
    allocBlocks (a :: l) = a :: allocBlocks l := by
  simp [allocBlocks, List.filter_cons, h]

theorem allocSizes_cons_free {a : Block} {l : List Block} (h : a.isFree = true) :
    allocSizes (a :: l) = allocSizes l := by
  rw [allocSizes, allocSizes, allocBlocks_cons_free h]

theorem allocSizes_cons_alloc {a : Block} {l : List Block} (h : a.isFree = false) :
    allocSizes (a :: l) = a.size + allocSizes l := by
  rw [allocSizes, allocSizes, allocBlocks_cons_alloc h]
  simp

theorem packAllocated_snd :
    ∀ {l : List Block} {c : Nat}, (packAllocated c l).2 = c + allocSizes l := by
  intro l
  induction l with
  | nil => intro c; simp [packAllocated, allocSizes, allocBlocks]
  | cons a rest ih =>
    intro c
    rw [packAllocated]
    by_cases ha : a.isFree = true
    · rw [if_pos ha, ih, allocSizes_cons_free ha]
    · rw [if_neg ha]
      have ha2 : a.isFree = false := Bool.eq_false_iff.mpr ha
      show (packAllocated (c + a.size) rest).2 = _
      rw [ih, allocSizes_cons_alloc ha2]
      omega

theorem packAllocated_sig :
    ∀ {l : List Block} {c : Nat},
      (packAllocated c l).1.map blockSig = (allocBlocks l).map blockSig := by
  intro l
  induction l with
  | nil => intro c; simp [packAllocated, allocBlocks]
  | cons a rest ih =>
    intro c
    rw [packAllocated]
    by_cases ha : a.isFree = true
    · rw [if_pos ha, allocBlocks_cons_free ha]
      exact ih
    · have ha2 : a.isFree = false := Bool.eq_false_iff.mpr ha
      rw [if_neg ha, allocBlocks_cons_alloc ha2]
      show blockSig { a with start := c } :: (packAllocated (c + a.size) rest).1.map blockSig = _
      rw [ih]
      rfl

theorem chainB_packAllocated :
    ∀ {l : List Block} {c : Nat}, (∀ b ∈ l, 0 < b.size) →
      chainB c (packAllocated c l).1 (packAllocated c l).2 = true := by
  intro l
  induction l with
  | nil => intro c _; simp [packAllocated, chainB]
  | cons a rest ih =>
    intro c hpos
    rw [packAllocated]
    by_cases ha : a.isFree = true
    · rw [if_pos ha]
      exact ih (fun b hb => hpos b (List.mem_cons_of_mem _ hb))
    · rw [if_neg ha]
      show chainB c ({ a with start := c } :: (packAllocated (c + a.size) rest).1) _ = true
      rw [chainB_cons_iff]
      refine ⟨rfl, hpos a (List.mem_cons_self _ _), ?_⟩
      show chainB (c + a.size) (packAllocated (c + a.size) rest).1
        (packAllocated (c + a.size) rest).2 = true
      exact ih (fun b hb => hpos b (List.mem_cons_of_mem _ hb))

theorem packAllocated_all_alloc :
    ∀ {l : List Block} {c : Nat} {b : Block},
      b ∈ (packAllocated c l).1 → b.isFree = false := by
  intro l
  induction l with
  | nil => intro c b hb; cases hb
  | cons a rest ih =>
    intro c b hb
    rw [packAllocated] at hb
    by_cases ha : a.isFree = true
    · rw [if_pos ha] at hb
      exact ih hb
    · rw [if_neg ha] at hb
      simp only at hb
      rcases List.mem_cons.mp hb with hb | hb
      · subst hb
        show Block.isFree { a with start := c } = false
        cases howner : a.owner with
        | Free => exact absurd (isFree_iff_owner.mpr howner) (by simp [ha])
        | Allocated q => simp [Block.isFree, howner]
      · exact ih hb

theorem allocPids_packAllocated :
    ∀ {l : List Block} {c : Nat}, allocPids (packAllocated c l).1 = allocPids l := by
  intro l
  induction l with
  | nil => intro c; rfl
  | cons a rest ih =>
    intro c
    rw [packAllocated]
    by_cases ha : a.isFree = true
    · rw [if_pos ha, allocPids_cons_free (isFree_iff_owner.mp ha)]
      exact ih
    · rw [if_neg ha]
      have ha2 : a.isFree = false := Bool.eq_false_iff.mpr ha
      show allocPids ({ a with start := c } :: (packAllocated (c + a.size) rest).1) = _
      obtain ⟨q, howner⟩ := isFree_false_iff_owner.mp ha2
      have hq1 : ({ a with start := c } : Block).owner = Owner.Allocated q := by
        simp [howner]
      rw [allocPids_cons_alloc hq1, allocPids_cons_alloc howner, ih]

theorem allocSizes_le_sum :
    ∀ {l : List Block}, allocSizes l ≤ (l.map Block.size).sum := by
  intro l
  induction l with
  | nil => simp [allocSizes, allocBlocks]
  | cons a rest ih =>
    by_cases ha : a.isFree = true
    · rw [allocSizes_cons_free ha]
      simp only [List.map_cons, List.sum_cons]
      omega
    · have ha2 : a.isFree = false := Bool.eq_false_iff.mpr ha
      rw [allocSizes_cons_alloc ha2]
      simp only [List.map_cons, List.sum_cons]
      omega

theorem noAdjFree_all_alloc :
    ∀ {l : List Block}, (∀ b ∈ l, b.isFree = false) → noAdjFree l = true := by
  intro l
  induction l with
  | nil => intro _; rfl
  | cons a rest ih =>
    intro h
    rw [noAdjFree_cons_iff]
    refine ⟨?_, ih (fun b hb => h b (List.mem_cons_of_mem _ hb))⟩
    intro c _
    rw [h a (List.mem_cons_self _ _)]
    rfl

theorem noAdjFree_all_alloc_append {l : List Block} {f : Block}
    (h : ∀ b ∈ l, b.isFree = false) : noAdjFree (l ++ [f]) = true := by
  induction l with
  | nil => rfl
  | cons a rest ih =>
    rw [List.cons_append, noAdjFree_cons_iff]
    refine ⟨?_, ih (fun b hb => h b (List.mem_cons_of_mem _ hb))⟩
    intro c _
    rw [h a (List.mem_cons_self _ _)]
    rfl

theorem allocPids_append {l1 l2 : List Block} :
    allocPids (l1 ++ l2) = allocPids l1 ++ allocPids l2 := by
  simp [allocPids, List.filterMap_append]

/-- Compaction preserves well-formedness. -/
theorem WF_compact {m : MemoryMap} (hwf : WF m) : WF (compact m) := by
  obtain ⟨hT, hch, hadj, hnd⟩ := hwf
  have hc2 : (packAllocated 0 m.blocks).2 = allocSizes m.blocks := by
    rw [packAllocated_snd]
    omega
  have hsum : (m.blocks.map Block.size).sum = m.total_memory := by
    have := chainB_sum hch
    omega
  have hle : (packAllocated 0 m.blocks).2 ≤ m.total_memory := by
    rw [hc2, ← hsum]
    exact allocSizes_le_sum
  have hpos : ∀ b ∈ m.blocks, 0 < b.size := chainB_sizes_pos hch
  have hchp : chainB 0 (packAllocated 0 m.blocks).1 (packAllocated 0 m.blocks).2 = true :=
    chainB_packAllocated hpos
  rw [compact]
  by_cases hlt : (packAllocated 0 m.blocks).2 < m.total_memory
  · rw [if_pos hlt]
    refine ⟨hT, ?_, ?_, ?_⟩
    · apply chainB_append hchp
      rw [chainB_cons_iff]
      refine ⟨rfl, ?_, ?_⟩
      · show 0 < m.total_memory - (packAllocated 0 m.blocks).2
        omega
      · show chainB ((packAllocated 0 m.blocks).2 +
          (m.total_memory - (packAllocated 0 m.blocks).2)) [] m.total_memory = true
        rw [chainB_nil_iff]
        omega
    · exact noAdjFree_all_alloc_append (fun b hb => packAllocated_all_alloc hb)
    · show (allocPids ((packAllocated 0 m.blocks).1 ++ [_])).Nodup
      rw [allocPids_append, allocPids_packAllocated]
      have : allocPids [Block.mk (packAllocated 0 m.blocks).2
          (m.total_memory - (packAllocated 0 m.blocks).2) Owner.Free] = [] := rfl
      rw [this, List.append_nil]
      exact hnd
  · rw [if_neg hlt]
    have heq : (packAllocated 0 m.blocks).2 = m.total_memory := by omega
    refine ⟨hT, ?_, ?_, ?_⟩
    · rw [← heq]
      exact hchp
    · exact noAdjFree_all_alloc (fun b hb => packAllocated_all_alloc hb)
    · rw [allocPids_packAllocated]
      exact hnd

/-- Reset preserves well-formedness. -/
theorem WF_reset {m : MemoryMap} (hwf : WF m) : WF (reset m) := by
  obtain ⟨hT, _, _, _⟩ := hwf
  refine ⟨hT, ?_, rfl, ?_⟩
  · rw [reset, initMap]
    show chainB 0 [Block.mk 0 m.total_memory Owner.Free] m.total_memory = true
    rw [chainB_cons_iff, chainB_nil_iff]
    exact ⟨rfl, hT, by simp⟩
  · show (allocPids [Block.mk 0 m.total_memory Owner.Free]).Nodup
    exact List.nodup_nil

/-- Every operation of the facade preserves well-formedness. -/
theorem WF_applyOp {m : MemoryMap} (op : Op) (hwf : WF m) : WF (applyOp m op) := by
  cases op with
  | alloc pid size strat =>
    rw [applyOp]
    cases h : allocate pid size strat m with
    | ok m2 => exact WF_allocate hwf h
    | error e => exact hwf
  | rel pid =>
    rw [applyOp]
    cases h : release pid m with
    | ok m2 => exact WF_release hwf h
    | error e => exact hwf
  | comp => exact WF_compact hwf
  | res => exact WF_reset hwf

/-- Every state reachable from a well-formed state is well-formed. -/
theorem WF_runOps {m : MemoryMap} (ops : List Op) (hwf : WF m) : WF (runOps m ops) := by
  induction ops generalizing m with
  | nil => exact hwf
  | cons op ops ih => exact ih (WF_applyOp op hwf)

/-- The initial map of positive size is well-formed. -/
theorem WF_initMap {T : Nat} (hT : 0 < T) : WF (initMap T) := by
  refine ⟨hT, ?_, rfl, List.nodup_nil⟩
  show chainB 0 [Block.mk 0 T Owner.Free] T = true
  rw [chainB_cons_iff, chainB_nil_iff]
  exact ⟨rfl, hT, by simp⟩

theorem applyOp_total {m : MemoryMap} (op : Op) :
    (applyOp m op).total_memory = m.total_memory := by
  cases op with
  | alloc pid size strat =>
    rw [applyOp]
    cases h : allocate pid size strat m with
    | ok m2 =>
      rw [allocate] at h
      by_cases hsz : size ≤ 0
      · rw [if_pos hsz] at h; cases h
      · rw [if_neg hsz] at h
        by_cases howns : ownsBlock pid m.blocks = true
        · rw [if_pos howns] at h; cases h
        · rw [if_neg howns] at h
          cases hsel : selectBlock strat size.toNat (find_free_blocks m.blocks) with
          | none => rw [hsel] at h; cases h
          | some i => rw [hsel] at h; dsimp only at h; cases h; rfl
    | error e => rfl
  | rel pid =>
    rw [applyOp]
    cases h : release pid m with
    | ok m2 =>
      rw [release] at h
      cases hloc : locate_owned pid m.blocks with
      | none => rw [hloc] at h; cases h
      | some i => rw [hloc] at h; dsimp only at h; cases h; rfl
    | error e => rfl
  | comp =>
    rw [applyOp, compact]
    by_cases hlt : (packAllocated 0 m.blocks).2 < m.total_memory
    · rw [if_pos hlt]
    · rw [if_neg hlt]
  | res => rfl

theorem runOps_total {m : MemoryMap} (ops : List Op) :
    (runOps m ops).total_memory = m.total_memory := by
  induction ops generalizing m with
  | nil => rfl
  | cons op ops ih =>
    show (runOps (applyOp m op) ops).total_memory = _
    rw [ih, applyOp_total]

end MemAlloc

namespace MemAlloc

/-! ## Bridge lemmas: explicit invariant forms -/

theorem chainB_start_lo {l : List Block} :
    ∀ {lo hi : Nat}, chainB lo l hi = true → ∀ b ∈ l, lo ≤ b.start := by
  induction l with
  | nil => intro lo hi _ b hb; cases hb
  | cons a rest ih =>
    intro lo hi h b hb
    rw [chainB_cons_iff] at h
    rcases List.mem_cons.mp hb with hb | hb
    · subst hb; omega
    · have := ih h.2.2 b hb
      omega

theorem chainB_pairwise {l : List Block} :
    ∀ {lo hi : Nat}, chainB lo l hi = true →
      List.Pairwise (fun a b : Block => a.start < b.start) l := by
  induction l with
  | nil => intro lo hi _; exact List.Pairwise.nil
  | cons a rest ih =>
    intro lo hi h
    rw [chainB_cons_iff] at h
    rw [List.pairwise_cons]
    refine ⟨?_, ih h.2.2⟩
    intro b hb
    have := chainB_start_lo h.2.2 b hb
    omega

theorem chainB_chain' {l : List Block} :
    ∀ {lo hi : Nat}, chainB lo l hi = true →
      List.Chain' (fun a b : Block => a.endAddr = b.start) l := by
  induction l with
  | nil => intro lo hi _; exact List.chain'_nil
  | cons a rest ih =>
    intro lo hi h
    rw [chainB_cons_iff] at h
    rw [List.chain'_cons']
    refine ⟨?_, ih h.2.2⟩
    intro b hb
    cases rest with
    | nil => cases hb
    | cons c rest2 =>
      have hc := h.2.2
      rw [chainB_cons_iff] at hc
      cases hb
      rw [Block.endAddr, hc.1]

theorem chainB_getLast {l : List Block} :
    ∀ {lo hi : Nat}, chainB lo l hi = true →
      ∀ b, l.getLast? = some b → b.endAddr = hi := by
  induction l with
  | nil => intro lo hi _ b hb; cases hb
  | cons a rest ih =>
    intro lo hi h b hb
    rw [chainB_cons_iff] at h
    cases rest with
    | nil =>
      have hba : b = a := by
        simp only [List.getLast?_singleton] at hb
        exact (Option.some_inj.mp hb).symm
      subst hba
      have h2 := h.2.2
      rw [chainB_nil_iff] at h2
      rw [Block.endAddr]
      omega
    | cons c rest2 =>
      rw [List.getLast?_cons_cons] at hb
      exact ih h.2.2 b hb

theorem noAdjFree_chain' {l : List Block} (h : noAdjFree l = true) :
    List.Chain' (fun a b : Block => a.isFree = false ∨ b.isFree = false) l := by
  induction l with
  | nil => exact List.chain'_nil
  | cons a rest ih =>
    rw [noAdjFree_cons_iff] at h
    rw [List.chain'_cons']
    refine ⟨?_, ih h.2⟩
    intro b hb
    have := h.1 b hb
    rcases Bool.and_eq_false_iff.mp this with h3 | h3
    · exact Or.inl h3
    · exact Or.inr h3

theorem length_filter_owner_eq_count {pid : String} {l : List Block} :
    (l.filter (fun b => decide (b.owner = Owner.Allocated pid))).length =
      (allocPids l).count pid := by
  induction l with
  | nil => rfl
  | cons a rest ih =>
    rw [List.filter_cons]
    cases howner : a.owner with
    | Free =>
      rw [allocPids_cons_free howner]
      have hcond : decide (Owner.Free = Owner.Allocated pid) = false := by simp
      simp only [hcond, Bool.false_eq_true, if_false]
      exact ih
    | Allocated q =>
      rw [allocPids_cons_alloc howner, List.count_cons]
      by_cases hq : q = pid
      · have hcond : decide (Owner.Allocated q = Owner.Allocated pid) = true := by
          simp [hq]
        have hbeq : (q == pid) = true := by simp [hq]
        simp only [hcond, if_true, hbeq, List.length_cons, ih]
      · have hcond : decide (Owner.Allocated q = Owner.Allocated pid) = false := by
          simp [hq]
        have hbeq : (q == pid) = false := by simp [hq]
        simp only [hcond, Bool.false_eq_true, if_false, hbeq, ih]
        simp

end MemAlloc

namespace MemAlloc

/-! ## Claim theorems -/

/-- C1: for every state reachable by any sequence of allocate, release, compact
and reset operations from the initial single-free-block state of positive size
`T`, the block sequence is sorted strictly increasing by start, gapless, starts
at 0 and ends at `T`, has positive block sizes summing to `T`, has no two
adjacent free blocks, and every process id owns at most one allocated block. -/
theorem c1_reachable_state_invariants (T : Nat) (ops : List Op) (hT : 0 < T) :
    List.Pairwise (fun a b : Block => a.start < b.start) (runOps (initMap T) ops).blocks ∧
    List.Chain' (fun a b : Block => a.endAddr = b.start) (runOps (initMap T) ops).blocks ∧
    (∃ b, (runOps (initMap T) ops).blocks.head? = some b ∧ b.start = 0) ∧
    (∃ b, (runOps (initMap T) ops).blocks.getLast? = some b ∧ b.endAddr = T) ∧
    (∀ b ∈ (runOps (initMap T) ops).blocks, 0 < b.size) ∧
    ((runOps (initMap T) ops).blocks.map Block.size).sum = T ∧
    List.Chain' (fun a b : Block => a.isFree = false ∨ b.isFree = false)
      (runOps (initMap T) ops).blocks ∧
    (∀ pid, ((runOps (initMap T) ops).blocks.filter
      (fun b => decide (b.owner = Owner.Allocated pid))).length ≤ 1) := by
  obtain ⟨hpos, hch, hadj, hnd⟩ := WF_runOps ops (WF_initMap hT)
  have htotal : (runOps (initMap T) ops).total_memory = T := runOps_total ops
  rw [htotal] at hch hpos
  refine ⟨chainB_pairwise hch, chainB_chain' hch, ?_, ?_, chainB_sizes_pos hch, ?_,
    noAdjFree_chain' hadj, ?_⟩
  · cases hbs : (runOps (initMap T) ops).blocks with
    | nil =>
      rw [hbs, chainB_nil_iff] at hch
      omega
    | cons b rest =>
      rw [hbs] at hch
      rw [chainB_cons_iff] at hch
      exact ⟨b, rfl, hch.1⟩
  · cases hbs : (runOps (initMap T) ops).blocks with
    | nil =>
      rw [hbs, chainB_nil_iff] at hch
      omega
    | cons b rest =>
      have hne : (b :: rest) ≠ [] := List.cons_ne_nil _ _
      obtain ⟨x, hx⟩ := Option.isSome_iff_exists.mp (List.getLast?_isSome.mpr hne)
      rw [hbs] at hch
      exact ⟨x, hx, chainB_getLast hch x hx⟩
  · have := chainB_sum hch
    omega
  · intro pid
    rw [length_filter_owner_eq_count]
    exact List.nodup_iff_count_le_one.mp hnd pid

/-- Witness for C1 at a concrete run: total memory 8, allocate two processes,
release one, compact. -/
theorem c1_reachable_state_invariants_witness :
    List.Pairwise (fun a b : Block => a.start < b.start)
      (runOps (initMap 8) [Op.alloc "P1" 3 Strategy.First, Op.alloc "P2" 2 Strategy.Best,
        Op.rel "P1", Op.comp]).blocks ∧
    List.Chain' (fun a b : Block => a.endAddr = b.start)
      (runOps (initMap 8) [Op.alloc "P1" 3 Strategy.First, Op.alloc "P2" 2 Strategy.Best,
        Op.rel "P1", Op.comp]).blocks ∧
    (∃ b, (runOps (initMap 8) [Op.alloc "P1" 3 Strategy.First, Op.alloc "P2" 2 Strategy.Best,
        Op.rel "P1", Op.comp]).blocks.head? = some b ∧ b.start = 0) ∧
    (∃ b, (runOps (initMap 8) [Op.alloc "P1" 3 Strategy.First, Op.alloc "P2" 2 Strategy.Best,
        Op.rel "P1", Op.comp]).blocks.getLast? = some b ∧ b.endAddr = 8) ∧
    (∀ b ∈ (runOps (initMap 8) [Op.alloc "P1" 3 Strategy.First, Op.alloc "P2" 2 Strategy.Best,
        Op.rel "P1", Op.comp]).blocks, 0 < b.size) ∧
    ((runOps (initMap 8) [Op.alloc "P1" 3 Strategy.First, Op.alloc "P2" 2 Strategy.Best,
        Op.rel "P1", Op.comp]).blocks.map Block.size).sum = 8 ∧
    List.Chain' (fun a b : Block => a.isFree = false ∨ b.isFree = false)
      (runOps (initMap 8) [Op.alloc "P1" 3 Strategy.First, Op.alloc "P2" 2 Strategy.Best,
        Op.rel "P1", Op.comp]).blocks ∧
    (∀ pid, ((runOps (initMap 8) [Op.alloc "P1" 3 Strategy.First, Op.alloc "P2" 2 Strategy.Best,
        Op.rel "P1", Op.comp]).blocks.filter
      (fun b => decide (b.owner = Owner.Allocated pid))).length ≤ 1) :=
  c1_reachable_state_invariants 8
    [Op.alloc "P1" 3 Strategy.First, Op.alloc "P2" 2 Strategy.Best, Op.rel "P1", Op.comp]
    (by decide)

/-- C7: reset always succeeds and replaces the block sequence with exactly one
free block spanning `[0, total_memory)`, leaving `total_memory` unchanged. -/
theorem c7_reset_single_free_block (m : MemoryMap) :
    reset m = ⟨[Block.mk 0 m.total_memory Owner.Free], m.total_memory⟩ ∧
    (reset m).total_memory = m.total_memory ∧
    applyOp m Op.res = ⟨[Block.mk 0 m.total_memory Owner.Free], m.total_memory⟩ :=
  ⟨rfl, rfl, rfl⟩

end MemAlloc

namespace MemAlloc

/-- C2: the Selector returns NoFit exactly when no free-list entry can hold the
requested size; otherwise, on an address-ordered free list, First fit picks the
qualifier with smallest start, Best fit the qualifier with smallest size (ties
by smallest start), and Worst fit the qualifier with largest size (ties by
smallest start). -/
theorem c2_selector_correct (strat : Strategy) (size : Nat)
    (frees : List (Nat × Block)) (hpos : 0 < size)
    (hsorted : List.Pairwise (fun p q : Nat × Block => p.2.start ≤ q.2.start) frees) :
    (selectBlock strat size frees = none ↔ ∀ p ∈ frees, p.2.size < size) ∧
    (∀ i, selectBlock strat size frees = some i →
      ∃ b, (i, b) ∈ frees ∧ size ≤ b.size ∧
        ∀ q ∈ frees, size ≤ q.2.size →
          (match strat with
           | Strategy.First => b.start ≤ q.2.start
           | Strategy.Best =>
               b.size ≤ q.2.size ∧ (b.size = q.2.size → b.start ≤ q.2.start)
           | Strategy.Worst =>
               q.2.size ≤ b.size ∧ (b.size = q.2.size → b.start ≤ q.2.start))) := by
  constructor
  · exact selectBlock_none_iff
  · intro i hsel
    cases strat with
    | First =>
      simp only [selectBlock, Option.map_eq_some'] at hsel
      obtain ⟨p, hp, hi⟩ := hsel
      obtain ⟨hmem, hfit⟩ := findFirstFit_mem hp
      subst hi
      exact ⟨p.2, hmem, hfit, fun q hq hqs => findFirstFit_min_start hsorted hp q hq hqs⟩
    | Best =>
      simp only [selectBlock, Option.map_eq_some'] at hsel
      obtain ⟨p, hp, hi⟩ := hsel
      have hmem := filterFits_mem.mp (pickBy_mem hp)
      subst hi
      refine ⟨p.2, hmem.1, hmem.2, ?_⟩
      intro q hq hqs
      have hopt := pickBy_opt betterBest_irrefl betterBest_asym betterBest_tr hp q
        (filterFits_mem.mpr ⟨hq, hqs⟩)
      simp only [betterBest, Bool.or_eq_false_iff, Bool.and_eq_false_iff,
        decide_eq_false_iff_not] at hopt
      refine ⟨by omega, ?_⟩
      intro hsz
      rcases hopt.2 with h2 | h2
      · omega
      · omega
    | Worst =>
      simp only [selectBlock, Option.map_eq_some'] at hsel
      obtain ⟨p, hp, hi⟩ := hsel
      have hmem := filterFits_mem.mp (pickBy_mem hp)
      subst hi
      refine ⟨p.2, hmem.1, hmem.2, ?_⟩
      intro q hq hqs
      have hopt := pickBy_opt betterWorst_irrefl betterWorst_asym betterWorst_tr hp q
        (filterFits_mem.mpr ⟨hq, hqs⟩)
      simp only [betterWorst, Bool.or_eq_false_iff, Bool.and_eq_false_iff,
        decide_eq_false_iff_not] at hopt
      refine ⟨by omega, ?_⟩
      intro hsz
      rcases hopt.2 with h2 | h2
      · omega
      · omega

/-- Witness for C2: best fit on the free list 1@0, 5@1, 2@6 with request 2. -/
theorem c2_selector_correct_witness :
    (selectBlock Strategy.Best 2
        [(0, Block.mk 0 1 Owner.Free), (1, Block.mk 1 5 Owner.Free),
          (2, Block.mk 6 2 Owner.Free)] = none ↔
      ∀ p ∈ [(0, Block.mk 0 1 Owner.Free), (1, Block.mk 1 5 Owner.Free),
          (2, Block.mk 6 2 Owner.Free)], p.2.size < 2) ∧
    (∀ i, selectBlock Strategy.Best 2
        [(0, Block.mk 0 1 Owner.Free), (1, Block.mk 1 5 Owner.Free),
          (2, Block.mk 6 2 Owner.Free)] = some i →
      ∃ b, (i, b) ∈ [(0, Block.mk 0 1 Owner.Free), (1, Block.mk 1 5 Owner.Free),
          (2, Block.mk 6 2 Owner.Free)] ∧ 2 ≤ b.size ∧
        ∀ q ∈ [(0, Block.mk 0 1 Owner.Free), (1, Block.mk 1 5 Owner.Free),
          (2, Block.mk 6 2 Owner.Free)], 2 ≤ q.2.size →
          (match Strategy.Best with
           | Strategy.First => b.start ≤ q.2.start
           | Strategy.Best =>
               b.size ≤ q.2.size ∧ (b.size = q.2.size → b.start ≤ q.2.start)
           | Strategy.Worst =>
               q.2.size ≤ b.size ∧ (b.size = q.2.size → b.start ≤ q.2.start))) :=
  c2_selector_correct Strategy.Best 2
    [(0, Block.mk 0 1 Owner.Free), (1, Block.mk 1 5 Owner.Free),
      (2, Block.mk 6 2 Owner.Free)] (by decide)
    (by simp)

end MemAlloc

namespace MemAlloc

/-- C4: allocate fails with `InvalidRequest` when `size ≤ 0`, with
`DuplicateProcess` when the process already owns a block (for a valid size),
and with `InsufficientSpace` when the Selector returns NoFit; in each failure
case the facade publishes an unchanged map. -/
theorem c4_allocate_failure_cases (m : MemoryMap) (pid : String) (size : Int)
    (strat : Strategy) :
    (size ≤ 0 →
      allocate pid size strat m = Except.error AllocError.InvalidRequest ∧
      applyOp m (Op.alloc pid size strat) = m) ∧
    (0 < size → ownsBlock pid m.blocks = true →
      allocate pid size strat m = Except.error AllocError.DuplicateProcess ∧
      applyOp m (Op.alloc pid size strat) = m) ∧
    (0 < size → ownsBlock pid m.blocks = false →
      selectBlock strat size.toNat (find_free_blocks m.blocks) = none →
      allocate pid size strat m = Except.error AllocError.InsufficientSpace ∧
      applyOp m (Op.alloc pid size strat) = m) := by
  refine ⟨?_, ?_, ?_⟩
  · intro hsz
    have herr : allocate pid size strat m = Except.error AllocError.InvalidRequest := by
      rw [allocate, if_pos hsz]
    refine ⟨herr, ?_⟩
    rw [applyOp, herr]
  · intro hsz howns
    have herr : allocate pid size strat m = Except.error AllocError.DuplicateProcess := by
      rw [allocate, if_neg (by omega), if_pos howns]
    refine ⟨herr, ?_⟩
    rw [applyOp, herr]
  · intro hsz howns hsel
    have herr : allocate pid size strat m = Except.error AllocError.InsufficientSpace := by
      rw [allocate, if_neg (by omega), if_neg (by simp [howns]), hsel]
    refine ⟨herr, ?_⟩
    rw [applyOp, herr]

/-- Witness for C4: the three failure cases at concrete inputs on a 4-byte
map. -/
theorem c4_allocate_failure_cases_witness :
    (allocate "P1" (-1) Strategy.First (initMap 4) =
        Except.error AllocError.InvalidRequest ∧
      applyOp (initMap 4) (Op.alloc "P1" (-1) Strategy.First) = initMap 4) ∧
    (allocate "P1" 2 Strategy.First
        (MemoryMap.mk [Block.mk 0 4 (Owner.Allocated "P1")] 4) =
        Except.error AllocError.DuplicateProcess ∧
      applyOp (MemoryMap.mk [Block.mk 0 4 (Owner.Allocated "P1")] 4)
        (Op.alloc "P1" 2 Strategy.First) =
        MemoryMap.mk [Block.mk 0 4 (Owner.Allocated "P1")] 4) ∧
    (allocate "P2" 9 Strategy.First (initMap 4) =
        Except.error AllocError.InsufficientSpace ∧
      applyOp (initMap 4) (Op.alloc "P2" 9 Strategy.First) = initMap 4) :=
  ⟨(c4_allocate_failure_cases (initMap 4) "P1" (-1) Strategy.First).1 (by decide),
    (c4_allocate_failure_cases (MemoryMap.mk [Block.mk 0 4 (Owner.Allocated "P1")] 4)
      "P1" 2 Strategy.First).2.1 (by decide) (by decide),
    (c4_allocate_failure_cases (initMap 4) "P2" 9 Strategy.First).2.2 (by decide)
      (by decide) (by decide)⟩

/-- C6: allocating `s` bytes (0 < s ≤ T) for a fresh process on the initial
single-free-block map of size `T` and then releasing that process restores the
map to exactly a single free block `[0, T)`, under every strategy. -/
theorem c6_alloc_release_roundtrip (T s : Nat) (pid : String) (strat : Strategy)
    (hs : 0 < s) (hsT : s ≤ T) :
    ∃ m1, allocate pid (s : Int) strat (initMap T) = Except.ok m1 ∧
      release pid m1 = Except.ok (initMap T) := by
  have hsz : ¬((s : Int) ≤ 0) := by omega
  have howns : ownsBlock pid (initMap T).blocks = false := by
    simp [ownsBlock, initMap]
  have hff : find_free_blocks (initMap T).blocks = [(0, Block.mk 0 T Owner.Free)] := by
    simp [find_free_blocks, initMap, enumFree, Block.isFree]
  have htn : ((s : Int)).toNat = s := by omega
  have hsel : selectBlock strat s [(0, Block.mk 0 T Owner.Free)] = some 0 := by
    cases strat with
    | First => simp [selectBlock, findFirstFit, hsT]
    | Best => simp [selectBlock, filterFits, pickBy, hsT]
    | Worst => simp [selectBlock, filterFits, pickBy, hsT]
  have halloc : allocate pid (s : Int) strat (initMap T) =
      Except.ok ⟨split_or_consume s pid 0 (initMap T).blocks, T⟩ := by
    rw [allocate, if_neg hsz, if_neg (by simp [howns]), htn, hff, hsel]
    rfl
  by_cases hTs : T = s
  · subst hTs
    have hsplit : split_or_consume T pid 0 (initMap T).blocks =
        [Block.mk 0 T (Owner.Allocated pid)] := by
      simp [split_or_consume, initMap]
    refine ⟨⟨[Block.mk 0 T (Owner.Allocated pid)], T⟩, ?_, ?_⟩
    · rw [halloc, hsplit]
    · simp [release, locate_owned, freeOwnerAt, merge_at, mergeNext, initMap,
        Block.isFree]
  · have hsplit : split_or_consume s pid 0 (initMap T).blocks =
        [Block.mk 0 s (Owner.Allocated pid), Block.mk s (T - s) Owner.Free] := by
      simp [split_or_consume, initMap, hTs]
    refine ⟨⟨[Block.mk 0 s (Owner.Allocated pid), Block.mk s (T - s) Owner.Free], T⟩,
      ?_, ?_⟩
    · rw [halloc, hsplit]
    · have hloc : locate_owned pid
          [Block.mk 0 s (Owner.Allocated pid), Block.mk s (T - s) Owner.Free] =
          some 0 := by
        simp [locate_owned]
      rw [release, hloc]
      dsimp only
      have hfo : freeOwnerAt 0
          [Block.mk 0 s (Owner.Allocated pid), Block.mk s (T - s) Owner.Free] =
          [Block.mk 0 s Owner.Free, Block.mk s (T - s) Owner.Free] := rfl
      rw [hfo]
      have hm : merge_at 0 [Block.mk 0 s Owner.Free, Block.mk s (T - s) Owner.Free] =
          [Block.mk 0 (s + (T - s)) Owner.Free] := by
        simp [merge_at, mergeNext, Block.isFree]
      rw [hm]
      have harith : s + (T - s) = T := by omega
      rw [harith]
      rfl

/-- Witness for C6: allocate 3 of 8 then release, under worst fit. -/
theorem c6_alloc_release_roundtrip_witness :
    ∃ m1, allocate "P1" ((3 : Nat) : Int) Strategy.Worst (initMap 8) = Except.ok m1 ∧
      release "P1" m1 = Except.ok (initMap 8) :=
  c6_alloc_release_roundtrip 8 3 "P1" Strategy.Worst (by decide) (by decide)

end MemAlloc

namespace MemAlloc

/-! ## Release characterization via the neighbourhood description -/

theorem locate_owned_none_iff {pid : String} {l : List Block} :
    locate_owned pid l = none ↔ ownsBlock pid l = false := by
  induction l with
  | nil => simp [locate_owned, ownsBlock]
  | cons a rest ih =>
    rw [locate_owned, ownsBlock, List.any_cons]
    by_cases ha : a.owner = Owner.Allocated pid
    · rw [if_pos ha]
      simp [ha]
    · rw [if_neg ha]
      rw [ownsBlock] at ih
      simp [ha, ih]

theorem locate_owned_append {L1 : List Block} {b : Block} {L2 : List Block}
    {pid : String} (hb : b.owner = Owner.Allocated pid)
    (hL1 : ∀ a ∈ L1, a.owner ≠ Owner.Allocated pid) :
    locate_owned pid (L1 ++ b :: L2) = some L1.length := by
  induction L1 with
  | nil =>
    rw [List.nil_append, locate_owned, if_pos hb]
    rfl
  | cons a rest ih =>
    rw [List.cons_append, locate_owned,
      if_neg (hL1 a (List.mem_cons_self _ _)),
      ih (fun x hx => hL1 x (List.mem_cons_of_mem _ hx))]
    rfl

theorem freeOwnerAt_append {L1 : List Block} {b : Block} {L2 : List Block} :
    freeOwnerAt L1.length (L1 ++ b :: L2) =
      L1 ++ { b with owner := Owner.Free } :: L2 := by
  induction L1 with
  | nil => rfl
  | cons a rest ih =>
    show a :: freeOwnerAt rest.length (rest ++ b :: L2) = _
    rw [ih]
    rfl

theorem merge_at_succ_succ {n : Nat} {a : Block} {l : List Block} :
    merge_at (n + 2) (a :: l) = a :: merge_at (n + 1) l := rfl

theorem coalesceNbhd_cons_cons {a a2 : Block} {rest1 : List Block} {b : Block}
    {L2 : List Block} :
    coalesceNbhd (a :: a2 :: rest1) b L2 = a :: coalesceNbhd (a2 :: rest1) b L2 := by
  obtain ⟨p, hp⟩ := Option.isSome_iff_exists.mp
    (List.getLast?_isSome.mpr (List.cons_ne_nil a2 rest1))
  have hp2 : (a :: a2 :: rest1).getLast? = some p := by
    rw [List.getLast?_cons_cons]
    exact hp
  have hdrop : (a :: a2 :: rest1).dropLast = a :: (a2 :: rest1).dropLast := rfl
  cases hL2 : L2.head? with
  | none =>
    rw [coalesceNbhd, coalesceNbhd, hp, hp2, hL2]
    dsimp only
    by_cases hpf : p.isFree = true
    · rw [if_pos hpf, if_pos hpf, hdrop]
      rfl
    · rw [if_neg hpf, if_neg hpf]
      rfl
  | some n =>
    rw [coalesceNbhd, coalesceNbhd, hp, hp2, hL2]
    dsimp only
    by_cases hpf : p.isFree = true
    · rw [if_pos hpf, if_pos hpf]
      by_cases hnf : n.isFree = true
      · rw [if_pos hnf, if_pos hnf, hdrop]
        rfl
      · rw [if_neg hnf, if_neg hnf, hdrop]
        rfl
    · rw [if_neg hpf, if_neg hpf]
      by_cases hnf : n.isFree = true
      · rw [if_pos hnf, if_pos hnf]
        rfl
      · rw [if_neg hnf, if_neg hnf]
        rfl

theorem merge_at_coalesceNbhd {L1 : List Block} {b : Block} {L2 : List Block}
    (hb : b.isFree = true) :
    merge_at L1.length (L1 ++ b :: L2) = coalesceNbhd L1 b L2 := by
  induction L1 with
  | nil =>
    show merge_at 0 (b :: L2) = _
    rw [merge_at, if_pos hb]
    cases L2 with
    | nil => rfl
    | cons n rest =>
      rw [mergeNext, coalesceNbhd]
      simp only [List.getLast?_nil, List.head?_cons]
      by_cases hnf : n.isFree = true
      · rw [if_pos hnf, if_pos hnf]
        rfl
      · rw [if_neg hnf, if_neg hnf]
  | cons a rest ih =>
    cases rest with
    | nil =>
      show merge_at 1 (a :: b :: L2) = _
      cases L2 with
      | nil =>
        rw [merge_at, if_pos hb, coalesceNbhd]
        simp only [List.getLast?_singleton, List.head?_nil]
        by_cases haf : a.isFree = true
        · rw [if_pos haf, if_pos haf, mergeNext]
          rfl
        · rw [if_neg haf, if_neg haf, mergeNext]
          rfl
      | cons n rest2 =>
        rw [merge_at, if_pos hb, coalesceNbhd]
        simp only [List.getLast?_singleton, List.head?_cons]
        by_cases haf : a.isFree = true
        · rw [if_pos haf, if_pos haf, mergeNext]
          by_cases hnf : n.isFree = true
          · rw [if_pos hnf, if_pos hnf]
            rfl
          · rw [if_neg hnf, if_neg hnf]
            rfl
        · rw [if_neg haf, if_neg haf, mergeNext]
          by_cases hnf : n.isFree = true
          · rw [if_pos hnf, if_pos hnf]
            rfl
          · rw [if_neg hnf, if_neg hnf]
            rfl
    | cons a2 rest1 =>
      have hlen : (a :: a2 :: rest1).length = rest1.length + 2 := rfl
      rw [coalesceNbhd_cons_cons, ← ih]
      rw [hlen, List.cons_append, merge_at_succ_succ]
      rfl

/-- C5: release on a process that owns nothing fails with `ProcessNotFound`
leaving the map unchanged; release on the owner of a block frees that block and
coalesces it with its free neighbours — absorbing the previous and/or the next
block, both at once when both are free (triple merge) — as described by
`coalesceNbhd`. -/
theorem c5_release_coalesces (m : MemoryMap) (pid : String) :
    (ownsBlock pid m.blocks = false →
      release pid m = Except.error AllocError.ProcessNotFound ∧
      applyOp m (Op.rel pid) = m) ∧
    (∀ L1 b L2, m.blocks = L1 ++ b :: L2 → b.owner = Owner.Allocated pid →
      (∀ a ∈ L1, a.owner ≠ Owner.Allocated pid) →
      release pid m =
        Except.ok ⟨coalesceNbhd L1 { b with owner := Owner.Free } L2,
          m.total_memory⟩) := by
  constructor
  · intro howns
    have herr : release pid m = Except.error AllocError.ProcessNotFound := by
      rw [release, locate_owned_none_iff.mpr howns]
    refine ⟨herr, ?_⟩
    rw [applyOp, herr]
  · intro L1 b L2 hblocks hb hL1
    rw [release, hblocks, locate_owned_append hb hL1]
    dsimp only
    rw [freeOwnerAt_append, merge_at_coalesceNbhd (by simp [Block.isFree])]

/-- Witness for C5: a missing process fails; releasing P1 between two free
blocks produces the triple merge. -/
theorem c5_release_coalesces_witness :
    (release "P9" (initMap 8) = Except.error AllocError.ProcessNotFound ∧
      applyOp (initMap 8) (Op.rel "P9") = initMap 8) ∧
    release "P1" (MemoryMap.mk [Block.mk 0 2 Owner.Free,
        Block.mk 2 3 (Owner.Allocated "P1"), Block.mk 5 3 Owner.Free] 8) =
      Except.ok ⟨coalesceNbhd [Block.mk 0 2 Owner.Free]
        (Block.mk 2 3 Owner.Free) [Block.mk 5 3 Owner.Free], 8⟩ :=
  ⟨(c5_release_coalesces (initMap 8) "P9").1 (by decide),
    (c5_release_coalesces (MemoryMap.mk [Block.mk 0 2 Owner.Free,
        Block.mk 2 3 (Owner.Allocated "P1"), Block.mk 5 3 Owner.Free] 8) "P1").2
      [Block.mk 0 2 Owner.Free] (Block.mk 2 3 (Owner.Allocated "P1"))
      [Block.mk 5 3 Owner.Free] rfl rfl (by decide)⟩

end MemAlloc

namespace MemAlloc

/-! ## Compaction characterization -/

theorem pack_fixed {A : List Block} :
    ∀ {c c2 : Nat}, (∀ b ∈ A, b.isFree = false) → chainB c A c2 = true →
      packAllocated c A = (A, c2) := by
  induction A with
  | nil =>
    intro c c2 _ hch
    rw [chainB_nil_iff] at hch
    rw [packAllocated, hch]
  | cons b rest ih =>
    intro c c2 hall hch
    rw [chainB_cons_iff] at hch
    have hbf : b.isFree = false := hall b (List.mem_cons_self _ _)
    have hc : b.start = c := hch.1
    subst hc
    rw [packAllocated, if_neg (by simp [hbf])]
    rw [ih (fun x hx => hall x (List.mem_cons_of_mem _ hx)) hch.2.2]

theorem pack_append_free :
    ∀ {l : List Block} {f : Block} {c : Nat}, f.isFree = true →
      packAllocated c (l ++ [f]) = packAllocated c l := by
  intro l
  induction l with
  | nil =>
    intro f c hf
    show packAllocated c [f] = _
    simp [packAllocated, hf]
  | cons a rest ih =>
    intro f c hf
    rw [List.cons_append, packAllocated, packAllocated]
    by_cases ha : a.isFree = true
    · rw [if_pos ha, if_pos ha, ih hf]
    · rw [if_neg ha, if_neg ha, ih hf]

theorem compact_of_compacted {m : MemoryMap} (h : Compacted m) : compact m = m := by
  obtain ⟨A, c, hall, hch, hcase⟩ := h
  rcases hcase with ⟨hceq, hbl⟩ | ⟨hlt, hbl⟩
  · rw [compact, hbl, pack_fixed hall hch]
    rw [if_neg (by omega)]
    rw [← hbl]
  · rw [compact, hbl, pack_append_free (by simp [Block.isFree]), pack_fixed hall hch]
    rw [if_pos hlt, ← hbl]

theorem compact_compacted {m : MemoryMap} (hwf : WF m) : Compacted (compact m) := by
  obtain ⟨hT, hch, hadj, hnd⟩ := hwf
  have hle : (packAllocated 0 m.blocks).2 ≤ m.total_memory := by
    rw [packAllocated_snd]
    have h1 := chainB_sum hch
    have h2 := @allocSizes_le_sum m.blocks
    omega
  have hpos : ∀ b ∈ m.blocks, 0 < b.size := chainB_sizes_pos hch
  have hchp : chainB 0 (packAllocated 0 m.blocks).1 (packAllocated 0 m.blocks).2 = true :=
    chainB_packAllocated hpos
  have hall : ∀ b ∈ (packAllocated 0 m.blocks).1, b.isFree = false :=
    fun b hb => packAllocated_all_alloc hb
  refine ⟨(packAllocated 0 m.blocks).1, (packAllocated 0 m.blocks).2, hall, hchp, ?_⟩
  rw [compact]
  by_cases hlt : (packAllocated 0 m.blocks).2 < m.total_memory
  · rw [if_pos hlt]
    exact Or.inr ⟨hlt, rfl⟩
  · rw [if_neg hlt]
    exact Or.inl ⟨(by omega : (packAllocated 0 m.blocks).2 = m.total_memory), rfl⟩

/-- C3: on a well-formed map, compact always succeeds: the result keeps each
allocated block's owner and size in the original address order, packs them
gaplessly from address 0, appends exactly one trailing free block up to
`total_memory` when the packed cursor falls short of it and none otherwise,
keeps `total_memory`, and yields the initial single-free-block map when no
block is allocated. -/
theorem c3_compact_correct (m : MemoryMap) (hwf : WF m) :
    ∃ A2, (compact m).blocks = A2 ++
        (if allocSizes m.blocks < m.total_memory then
          [Block.mk (allocSizes m.blocks)
            (m.total_memory - allocSizes m.blocks) Owner.Free]
         else []) ∧
      A2.map blockSig = (allocBlocks m.blocks).map blockSig ∧
      chainB 0 A2 (allocSizes m.blocks) = true ∧
      (compact m).total_memory = m.total_memory ∧
      (allocBlocks m.blocks = [] → compact m = initMap m.total_memory) := by
  obtain ⟨hT, hch, hadj, hnd⟩ := hwf
  have hc2 : (packAllocated 0 m.blocks).2 = allocSizes m.blocks := by
    rw [packAllocated_snd]
    omega
  refine ⟨(packAllocated 0 m.blocks).1, ?_, packAllocated_sig, ?_, ?_, ?_⟩
  · rw [compact]
    by_cases hlt : (packAllocated 0 m.blocks).2 < m.total_memory
    · rw [if_pos hlt]
      rw [hc2] at hlt
      rw [if_pos hlt, hc2]
    · rw [if_neg hlt]
      rw [hc2] at hlt
      rw [if_neg hlt, List.append_nil]
  · have := @chainB_packAllocated m.blocks 0 (chainB_sizes_pos hch)
    rw [hc2] at this
    exact this
  · rw [compact]
    by_cases hlt : (packAllocated 0 m.blocks).2 < m.total_memory
    · rw [if_pos hlt]
    · rw [if_neg hlt]
  · intro hempty
    have hsz : allocSizes m.blocks = 0 := by
      rw [allocSizes, hempty]
      rfl
    have hnil : (packAllocated 0 m.blocks).1 = [] := by
      have hsig := @packAllocated_sig m.blocks 0
      rw [hempty] at hsig
      simpa using hsig
    rw [compact, packAllocated_snd, hsz]
    rw [if_pos (by omega)]
    rw [hnil, List.nil_append, initMap]
    have : m.total_memory - (0 + 0) = m.total_memory := by omega
    rw [this]

/-- Witness for C3: compacting a map with one allocated block in the middle. -/
theorem c3_compact_correct_witness :
    WF (MemoryMap.mk [Block.mk 0 2 Owner.Free,
        Block.mk 2 3 (Owner.Allocated "P2"), Block.mk 5 3 Owner.Free] 8) ∧
    ∃ A2, (compact (MemoryMap.mk [Block.mk 0 2 Owner.Free,
          Block.mk 2 3 (Owner.Allocated "P2"), Block.mk 5 3 Owner.Free] 8)).blocks =
        A2 ++
        (if allocSizes [Block.mk 0 2 Owner.Free,
            Block.mk 2 3 (Owner.Allocated "P2"), Block.mk 5 3 Owner.Free] < 8 then
          [Block.mk (allocSizes [Block.mk 0 2 Owner.Free,
              Block.mk 2 3 (Owner.Allocated "P2"), Block.mk 5 3 Owner.Free])
            (8 - allocSizes [Block.mk 0 2 Owner.Free,
              Block.mk 2 3 (Owner.Allocated "P2"), Block.mk 5 3 Owner.Free])
            Owner.Free]
         else []) ∧
      A2.map blockSig = (allocBlocks [Block.mk 0 2 Owner.Free,
          Block.mk 2 3 (Owner.Allocated "P2"), Block.mk 5 3 Owner.Free]).map blockSig ∧
      chainB 0 A2 (allocSizes [Block.mk 0 2 Owner.Free,
          Block.mk 2 3 (Owner.Allocated "P2"), Block.mk 5 3 Owner.Free]) = true ∧
      (compact (MemoryMap.mk [Block.mk 0 2 Owner.Free,
          Block.mk 2 3 (Owner.Allocated "P2"), Block.mk 5 3 Owner.Free] 8)).total_memory
        = 8 ∧
      (allocBlocks [Block.mk 0 2 Owner.Free,
          Block.mk 2 3 (Owner.Allocated "P2"), Block.mk 5 3 Owner.Free] = [] →
        compact (MemoryMap.mk [Block.mk 0 2 Owner.Free,
          Block.mk 2 3 (Owner.Allocated "P2"), Block.mk 5 3 Owner.Free] 8) = initMap 8) :=
  ⟨by decide,
    c3_compact_correct (MemoryMap.mk [Block.mk 0 2 Owner.Free,
      Block.mk 2 3 (Owner.Allocated "P2"), Block.mk 5 3 Owner.Free] 8) (by decide)⟩

/-- C8: compact is the identity on every already-compacted map (allocated
blocks packed from 0 with at most one trailing free block), and on well-formed
maps compact after compact equals compact. -/
theorem c8_compact_idempotent (m : MemoryMap) :
    (Compacted m → compact m = m) ∧ (WF m → compact (compact m) = compact m) :=
  ⟨compact_of_compacted, fun hwf => compact_of_compacted (compact_compacted hwf)⟩

/-- Witness for C8 on a compacted two-block map. -/
theorem c8_compact_idempotent_witness :
    Compacted (MemoryMap.mk [Block.mk 0 3 (Owner.Allocated "P1"),
        Block.mk 3 5 Owner.Free] 8) ∧
    compact (MemoryMap.mk [Block.mk 0 3 (Owner.Allocated "P1"),
        Block.mk 3 5 Owner.Free] 8) =
      MemoryMap.mk [Block.mk 0 3 (Owner.Allocated "P1"), Block.mk 3 5 Owner.Free] 8 ∧
    WF (MemoryMap.mk [Block.mk 0 3 (Owner.Allocated "P1"),
        Block.mk 3 5 Owner.Free] 8) ∧
    compact (compact (MemoryMap.mk [Block.mk 0 3 (Owner.Allocated "P1"),
        Block.mk 3 5 Owner.Free] 8)) =
      compact (MemoryMap.mk [Block.mk 0 3 (Owner.Allocated "P1"),
        Block.mk 3 5 Owner.Free] 8) :=
  have hc : Compacted (MemoryMap.mk [Block.mk 0 3 (Owner.Allocated "P1"),
      Block.mk 3 5 Owner.Free] 8) :=
    ⟨[Block.mk 0 3 (Owner.Allocated "P1")], 3, by decide, by decide,
      Or.inr ⟨by decide, rfl⟩⟩
  have hwf : WF (MemoryMap.mk [Block.mk 0 3 (Owner.Allocated "P1"),
      Block.mk 3 5 Owner.Free] 8) := by decide
  ⟨hc, (c8_compact_idempotent (MemoryMap.mk [Block.mk 0 3 (Owner.Allocated "P1"),
      Block.mk 3 5 Owner.Free] 8)).1 hc, hwf,
    (c8_compact_idempotent (MemoryMap.mk [Block.mk 0 3 (Owner.Allocated "P1"),
      Block.mk 3 5 Owner.Free] 8)).2 hwf⟩

end MemAlloc

namespace MemAlloc

/-- C9: for a terminal line whose first token uppercases to RQ, the handler
issues a network request exactly when there are three arguments, the size token
parses (JS `parseInt`) to a positive number, and the strategy token uppercases
to F, B or W; otherwise it records an error entry and sends nothing; a sent
request always carries the uppercased strategy token. -/
theorem c9_rq_command_validation (parts : List String) (cmd : String)
    (args : List String) (hparts : parts = cmd :: args)
    (hcmd : asciiUpper cmd = "RQ") :
    handleCommandSubmit parts = some (handleRQ args) ∧
    (∀ req, handleRQ args = RqOutcome.sent req →
      ∃ pid s st n, args = [pid, s, st] ∧ parseIntJS s = some n ∧ 0 < n ∧
        (asciiUpper st = "F" ∨ asciiUpper st = "B" ∨ asciiUpper st = "W") ∧
        req = ⟨pid, n, asciiUpper st⟩) ∧
    (∀ pid s st n, args = [pid, s, st] → parseIntJS s = some n → 0 < n →
      (asciiUpper st = "F" ∨ asciiUpper st = "B" ∨ asciiUpper st = "W") →
      handleRQ args = RqOutcome.sent ⟨pid, n, asciiUpper st⟩) ∧
    ((¬∃ pid s st n, args = [pid, s, st] ∧ parseIntJS s = some n ∧ 0 < n ∧
        (asciiUpper st = "F" ∨ asciiUpper st = "B" ∨ asciiUpper st = "W")) →
      ∃ msg, handleRQ args = RqOutcome.errorEntry msg) := by
  have hsent : ∀ req, handleRQ args = RqOutcome.sent req →
      ∃ pid s st n, args = [pid, s, st] ∧ parseIntJS s = some n ∧ 0 < n ∧
        (asciiUpper st = "F" ∨ asciiUpper st = "B" ∨ asciiUpper st = "W") ∧
        req = ⟨pid, n, asciiUpper st⟩ := by
    intro req h
    rcases args with _ | ⟨pid, _ | ⟨s, _ | ⟨st, _ | ⟨x, rest⟩⟩⟩⟩
    · simp [handleRQ] at h
    · simp [handleRQ] at h
    · simp [handleRQ] at h
    · rw [handleRQ] at h
      cases hp : parseIntJS s with
      | none => rw [hp] at h; cases h
      | some n =>
        rw [hp] at h
        dsimp only at h
        by_cases hn : n ≤ 0
        · rw [if_pos hn] at h; cases h
        · rw [if_neg hn] at h
          by_cases hst : asciiUpper st = "F" ∨ asciiUpper st = "B" ∨ asciiUpper st = "W"
          · rw [if_pos hst] at h
            injection h with h2
            exact ⟨pid, s, st, n, rfl, hp, by omega, hst, h2.symm⟩
          · rw [if_neg hst] at h; cases h
    · simp [handleRQ] at h
  refine ⟨?_, hsent, ?_, ?_⟩
  · rw [hparts, handleCommandSubmit, if_pos hcmd]
  · intro pid s st n hargs hp hn hst
    subst hargs
    rw [handleRQ, hp]
    dsimp only
    rw [if_neg (by omega), if_pos hst]
  · intro hnone
    cases hout : handleRQ args with
    | sent req =>
      obtain ⟨pid, s, st, n, h1, h2, h3, h4, _⟩ := hsent req hout
      exact absurd ⟨pid, s, st, n, h1, h2, h3, h4⟩ hnone
    | errorEntry msg => exact ⟨msg, rfl⟩

/-- Witness for C9: the line `rq P1 10 f`. -/
theorem c9_rq_command_validation_witness :
    handleCommandSubmit ["rq", "P1", "10", "f"] =
      some (handleRQ ["P1", "10", "f"]) ∧
    (∀ req, handleRQ ["P1", "10", "f"] = RqOutcome.sent req →
      ∃ pid s st n, ["P1", "10", "f"] = [pid, s, st] ∧ parseIntJS s = some n ∧ 0 < n ∧
        (asciiUpper st = "F" ∨ asciiUpper st = "B" ∨ asciiUpper st = "W") ∧
        req = ⟨pid, n, asciiUpper st⟩) ∧
    (∀ pid s st n, ["P1", "10", "f"] = [pid, s, st] → parseIntJS s = some n → 0 < n →
      (asciiUpper st = "F" ∨ asciiUpper st = "B" ∨ asciiUpper st = "W") →
      handleRQ ["P1", "10", "f"] = RqOutcome.sent ⟨pid, n, asciiUpper st⟩) ∧
    ((¬∃ pid s st n, ["P1", "10", "f"] = [pid, s, st] ∧ parseIntJS s = some n ∧ 0 < n ∧
        (asciiUpper st = "F" ∨ asciiUpper st = "B" ∨ asciiUpper st = "W")) →
      ∃ msg, handleRQ ["P1", "10", "f"] = RqOutcome.errorEntry msg) :=
  c9_rq_command_validation ["rq", "P1", "10", "f"] "rq" ["P1", "10", "f"] rfl (by decide)

/-- C10: the visualizer is total — a non-positive total size or an absent or
empty block list yields a fallback message without computing any width;
otherwise it renders one bar per block of width `size / totalMemorySize * 100`
with a strictly positive divisor, and a size-sum mismatch only sets the warning
flag, never preventing the bars from rendering. -/
theorem c10_visualizer_total (blocks : Option (List MemoryBlockData))
    (totalMemorySize : Int) :
    (totalMemorySize ≤ 0 →
      memoryVisualizer blocks totalMemorySize = VizOutput.totalSizeMessage) ∧
    (0 < totalMemorySize → (blocks = none ∨ blocks = some []) →
      memoryVisualizer blocks totalMemorySize = VizOutput.noBlocksMessage) ∧
    (∀ l, 0 < totalMemorySize → blocks = some l → l ≠ [] →
      memoryVisualizer blocks totalMemorySize =
        VizOutput.bars (decide ((l.map (fun b => b.size)).sum ≠ totalMemorySize))
          (l.map (fun b => (b.size : ℚ) / (totalMemorySize : ℚ) * 100)) ∧
        0 < (totalMemorySize : ℚ)) := by
  refine ⟨?_, ?_, ?_⟩
  · intro h
    rw [memoryVisualizer.eq_def, if_pos h]
  · intro hpos hb
    rw [memoryVisualizer.eq_def, if_neg (by omega)]
    rcases hb with hb | hb
    · rw [hb]
    · rw [hb]
      rfl
  · intro l hpos hb hne
    rw [memoryVisualizer.eq_def, if_neg (by omega), hb]
    dsimp only
    rw [if_neg (by simpa using hne)]
    refine ⟨rfl, ?_⟩
    exact_mod_cast hpos

/-- Witness for C10: the three visualizer behaviours at concrete inputs. -/
theorem c10_visualizer_total_witness :
    (memoryVisualizer (some [MemoryBlockData.mk 0 4 4 "Unused" none]) 0 =
      VizOutput.totalSizeMessage) ∧
    (memoryVisualizer none 8 = VizOutput.noBlocksMessage) ∧
    (memoryVisualizer (some [MemoryBlockData.mk 0 4 4 "Unused" none]) 8 =
      VizOutput.bars
        (decide (([MemoryBlockData.mk 0 4 4 "Unused" none].map
          (fun b => b.size)).sum ≠ (8 : Int)))
        ([MemoryBlockData.mk 0 4 4 "Unused" none].map
          (fun b => (b.size : ℚ) / ((8 : Int) : ℚ) * 100)) ∧
      0 < ((8 : Int) : ℚ)) :=
  ⟨(c10_visualizer_total (some [MemoryBlockData.mk 0 4 4 "Unused" none]) 0).1 (by decide),
    (c10_visualizer_total none 8).2.1 (by decide) (Or.inl rfl),
    (c10_visualizer_total (some [MemoryBlockData.mk 0 4 4 "Unused" none]) 8).2.2
      [MemoryBlockData.mk 0 4 4 "Unused" none] (by decide) rfl (by decide)⟩

end MemAlloc
